import Mathlib

/-!
Formal model of the lazy, partitioned, task-graph dataframe abstraction
described by the specification of this repository.  The repository itself is
a tutorial notebook (`03a-DataFrame.ipynb`) whose dataframe engine lives in
an external library, so the engine is modelled here from the specification:
logical tables split into immutable partitions, a task graph of deferred
computation nodes, a schedule-driven executor, divisions bounding partition
key ranges, and the operations the notebook demonstrates (`read_csv`,
elementwise arithmetic, selections, aggregations, `groupby`, `loc`,
`set_index`, `head`, `compute`).
-/

namespace Dask

/-- Modelled from the spec: one record of a logical table, carrying the
index key the table is partitioned by and a numeric payload column. -/
structure Row where
  key : Int
  amount : Int
  deriving DecidableEq

/-- Modelled from the spec: a value materialized by a task node — a
partition of rows (the pandas-frame analogue), a scalar aggregate, or a
(sum, count) pair used to combine means. -/
inductive Value where
  | table (rows : List Row)
  | scalar (x : Int)
  | pair (s c : Int)
  deriving DecidableEq

/-- Name of a task node: (layer, partition index).  Each logical operation
allocates a fresh layer, so keys of distinct operations never collide. -/
abbrev Key := Nat × Nat

/-- Sum of the payload column of a partition. -/
def sumAmounts (rows : List Row) : Int := (rows.map Row.amount).sum

/-- Sorted-association-list insertion: add contribution `v` to group `k`,
keeping the group rows sorted by key. -/
def addToGroup (k : Int) (v : Int) : List Row → List Row
  | [] => [⟨k, v⟩]
  | r :: rest =>
    if k < r.key then ⟨k, v⟩ :: r :: rest
    else if k = r.key then ⟨r.key, r.amount + v⟩ :: rest
    else r :: addToGroup k v rest

/-- Per-partition groupby-sum: fold the rows into a sorted association list
of (group key, summed amount), represented again as rows. -/
def groupSum (rows : List Row) : List Row :=
  rows.foldr (fun r acc => addToGroup r.key r.amount acc) []

/-- Merge one grouped result into another by re-inserting each group. -/
def mergeGroups (g acc : List Row) : List Row :=
  g.foldr (fun r acc => addToGroup r.key r.amount acc) acc

/-- Modelled from the spec: the function slot of a task node.  `source`
materializes a fixed chunk of rows (one CSV shard); the rest are the
per-partition and combining steps of the notebook's operations. -/
inductive Func where
  | source (rows : List Row)
  | filterPos
  | addConst (c : Int)
  | locPart (a b : Int)
  | sumPart
  | sumCombine
  | sumCountPart
  | meanCombine
  | groupPart
  | groupCombine
  | headPart (n : Nat)
  deriving DecidableEq

/-- Option-valued map over a list, failing if any element fails. -/
def mapOpt {α β : Type} (f : α → Option β) : List α → Option (List β)
  | [] => some []
  | a :: rest =>
    match f a, mapOpt f rest with
    | some b, some bs => some (b :: bs)
    | _, _ => none

def asTable : Value → Option (List Row)
  | .table rows => some rows
  | _ => none

def asScalar : Value → Option Int
  | .scalar x => some x
  | _ => none

def asPair : Value → Option (Int × Int)
  | .pair s c => some (s, c)
  | _ => none

/-- Apply a task function to the materialized values of its inputs. -/
def Func.apply : Func → List Value → Option Value
  | .source rows, [] => some (.table rows)
  | .filterPos, [v] =>
    (asTable v).map (fun rows => .table (rows.filter (fun r => decide (0 < r.amount))))
  | .addConst c, [v] =>
    (asTable v).map (fun rows => .table (rows.map (fun r => ⟨r.key, r.amount + c⟩)))
  | .locPart a b, [v] =>
    (asTable v).map (fun rows =>
      .table (rows.filter (fun r => decide (a ≤ r.key ∧ r.key ≤ b))))
  | .sumPart, [v] => (asTable v).map (fun rows => .scalar (sumAmounts rows))
  | .sumCombine, vs => (mapOpt asScalar vs).map (fun xs => .scalar xs.sum)
  | .sumCountPart, [v] =>
    (asTable v).map (fun rows => .pair (sumAmounts rows) (rows.length : Int))
  | .meanCombine, vs =>
    (mapOpt asPair vs).map (fun ps =>
      .scalar ((ps.map Prod.fst).sum / (ps.map Prod.snd).sum))
  | .groupPart, [v] => (asTable v).map (fun rows => .table (groupSum rows))
  | .groupCombine, vs => (mapOpt asTable vs).map (fun ts => .table (ts.foldr mergeGroups []))
  | .headPart n, [v] => (asTable v).map (fun rows => .table (rows.take n))
  | _, _ => none

/-- Modelled from the spec: a task node is a unit of deferred computation —
a function plus references to the nodes producing its inputs. -/
structure Task where
  fn : Func
  deps : List Key
  deriving DecidableEq

/-- Modelled from the spec: a task graph is a finite map from keys to task
nodes, kept in (topological) insertion order. -/
abbrev TaskGraph := List (Key × Task)

/-- Store of materialized node outputs. -/
abbrev Env := List (Key × Value)

/-- Association-list lookup returning the first binding of `k`. -/
def alookup {β : Type} (k : Key) : List (Key × β) → Option β
  | [] => none
  | (k₁, v) :: rest => if k₁ = k then some v else alookup k rest

/-- Modelled from the spec: execute one scheduled node.  The step fails
unless the node exists in the graph, has not been executed before, and all
of its inputs are already materialized in the store; on success the node's
single output is added to the store. -/
def runStep (g : TaskGraph) (env : Env) (k : Key) : Option Env :=
  (alookup k g).bind fun t =>
    if (alookup k env).isSome then none
    else
      (mapOpt (fun d => alookup d env) t.deps).bind fun args =>
        (t.fn.apply args).map fun v => (k, v) :: env

/-- Run the scheduled nodes in order, threading the store. -/
def runSched (g : TaskGraph) : List Key → Env → Option Env
  | [], env => some env
  | k :: rest, env =>
    match runStep g env k with
    | none => none
    | some env₁ => runSched g rest env₁

/-- Modelled from the spec: execute the graph under an arbitrary execution
order (schedule) starting from an empty store.  A sequential policy passes
the graph's own order; a parallel policy corresponds to any interleaving of
the workers' node completions. -/
def run (g : TaskGraph) (s : List Key) : Option Env := runSched g s []

/-- Sequential execution policy: execute the nodes in graph order. -/
def seqRun (g : TaskGraph) : Option Env := run g (g.map Prod.fst)

/-- Position of the first occurrence of `k` in a list of keys. -/
def posIn (k : Key) : List Key → Nat
  | [] => 0
  | a :: rest => if a = k then 0 else posIn k rest + 1

/-- Modelled from the spec: structural well-formedness of a task graph:
every node's key is fresh and every dependency refers to a node appearing
strictly earlier, so the stored order is a topological order. -/
def depsOK (seen : List Key) : TaskGraph → Bool
  | [] => true
  | (k, t) :: rest =>
    decide (k ∉ seen) && t.deps.all (fun d => decide (d ∈ seen)) && depsOK (k :: seen) rest

/-- Well-formedness of a whole graph. -/
def WFg (g : TaskGraph) : Bool := depsOK [] g

/-- Direct dependency: node `k` consumes the output of node `d`. -/
def Edge (g : TaskGraph) (k d : Key) : Prop :=
  ∃ t, alookup k g = some t ∧ d ∈ t.deps

/-- Keys bound in an association list (graph nodes, store bindings). -/
def gKeys {β : Type} (l : List (Key × β)) : List Key := l.map Prod.fst

/-- Modelled from the spec: a logical table: the task graph recorded so
far, the keys of the tasks producing its partitions (in order), the
divisions bounding the partition key ranges (`none` when unknown), and a
counter from which fresh layers are allocated. -/
structure DFrame where
  dask : TaskGraph
  keys : List Key
  divisions : Option (List Int)
  next : Nat

/-- Modelled from the spec: a lazily evaluated scalar aggregate. -/
structure DScalar where
  dask : TaskGraph
  key : Key

/-- Keys `(layer, i₀), (layer, i₀+1), …` for `n` partitions. -/
def keysGo (layer : Nat) : Nat → Nat → List Key
  | _, 0 => []
  | i, n + 1 => (layer, i) :: keysGo layer (i + 1) n

/-- Partition keys of one layer. -/
def partKeys (layer n : Nat) : List Key := keysGo layer 0 n

/-- Source nodes for a list of physical chunks, starting at index `i`. -/
def sourceGo : Nat → List (List Row) → TaskGraph
  | _, [] => []
  | i, rows :: rest => ((0, i), ⟨.source rows, []⟩) :: sourceGo (i + 1) rest

/-- Graph holding only fully materialized source partitions. -/
def sourceGraph (parts : List (List Row)) : TaskGraph := sourceGo 0 parts

/-- Modelled from the spec: `dd.read_csv` over a glob of CSV shards: one
source task per file; the ingestion gives no ordering guarantee, so the
divisions are unknown (`none`). -/
def readCsv (files : List (List Row)) : DFrame :=
  { dask := sourceGraph files
    keys := partKeys 0 files.length
    divisions := none
    next := 1 }

/-- One task per listed dependency key, at layer `layer` from index `i`. -/
def mapNodesGo (fn : Func) (layer : Nat) : Nat → List Key → TaskGraph
  | _, [] => []
  | i, k :: rest => ((layer, i), ⟨fn, [k]⟩) :: mapNodesGo fn layer (i + 1) rest

/-- Per-partition tasks applying `fn` to each partition of `ks`. -/
def mapNodes (fn : Func) (layer : Nat) (ks : List Key) : TaskGraph :=
  mapNodesGo fn layer 0 ks

/-- Modelled from the spec: a per-partition (embarrassingly parallel)
transformation: calling it only appends one task node per partition to the
graph; no partition data is read or produced at call time. -/
def mapOp (fn : Func) (df : DFrame) : DFrame :=
  { dask := df.dask ++ mapNodes fn df.next df.keys
    keys := partKeys df.next df.keys.length
    divisions := df.divisions
    next := df.next + 1 }

/-- Row-wise selection `df[df.amount > 0]`. -/
def filterPositive (df : DFrame) : DFrame := mapOp .filterPos df

/-- Elementwise arithmetic `df.amount + c`. -/
def addConstant (c : Int) (df : DFrame) : DFrame := mapOp (.addConst c) df

/-- Single combining node consuming all partition outputs of a layer. -/
def combineNode (cfn : Func) (layer n : Nat) (key : Key) : TaskGraph :=
  [(key, ⟨cfn, partKeys layer n⟩)]

/-- Modelled from the spec: a tree-reduced aggregation: one task per
partition plus one combining task, all recorded lazily. -/
def aggOp (pfn cfn : Func) (df : DFrame) : DScalar :=
  { dask := df.dask ++ mapNodes pfn df.next df.keys
      ++ combineNode cfn df.next df.keys.length (df.next + 1, 0)
    key := (df.next + 1, 0) }

/-- Lazy `df.amount.sum()`. -/
def sumAmount (df : DFrame) : DScalar := aggOp .sumPart .sumCombine df

/-- Lazy `df.amount.mean()`, combined from per-partition (sum, count). -/
def meanAmount (df : DFrame) : DScalar := aggOp .sumCountPart .meanCombine df

/-- Modelled from the spec: groupby-aggregate with a common aggregation:
per-partition groupby-sums merged by one combining task into a
single-partition frame with unknown divisions. -/
def groupbySum (df : DFrame) : DFrame :=
  { dask := df.dask ++ mapNodes .groupPart df.next df.keys
      ++ combineNode .groupCombine df.next df.keys.length (df.next + 1, 0)
    keys := [(df.next + 1, 0)]
    divisions := none
    next := df.next + 2 }

/-- Extract a materialized partition from a store value. -/
def getTable : Option Value → List Row
  | some (.table rows) => rows
  | _ => []

/-- Modelled from the spec: `.compute()` on a frame: execute the graph and
concatenate the materialized partitions in order. -/
def computeFrame (df : DFrame) : List Row :=
  match seqRun df.dask with
  | some env => (df.keys.map (fun k => getTable (alookup k env))).flatten
  | none => []

/-- Modelled from the spec: `.compute()` on a scalar aggregate. -/
def computeScalar (s : DScalar) : Option Int :=
  (seqRun s.dask).bind (fun env => (alookup s.key env).bind asScalar)

/-- Modelled from the spec: `head` — the one eager operation of the public
interface: it executes the graph at call time and returns the first `n`
rows of the first partition as concrete data, with no `.compute()` call. -/
def headRows (n : Nat) (df : DFrame) : List Row :=
  match df.keys with
  | [] => []
  | k :: _ =>
    match seqRun df.dask with
    | some env => (getTable (alookup k env)).take n
    | none => []

/-- Modelled from the spec: partition indices a `loc` key-range query for
`[a, b]` reads: a contiguous block computed from the divisions by counting
boundaries at most `a` (start) and at most `b` (stop). -/
def locTouched (ds : List Int) (a b : Int) : List Nat :=
  match ds.getLast? with
  | none => []
  | some dn =>
    if ds.length < 2 ∨ dn < a then []
    else
      List.range' (min (ds.tail.countP (fun d => decide (d ≤ a))) (ds.length - 2))
        (ds.dropLast.countP (fun d => decide (d ≤ b))
          - min (ds.tail.countP (fun d => decide (d ≤ a))) (ds.length - 2))

/-- Loc tasks reading only the selected partitions. -/
def locNodes (a b : Int) (layer : Nat) (ks : List Key) (idxs : List Nat) : TaskGraph :=
  mapNodesGo (.locPart a b) layer 0 (idxs.map (fun i => ks.getD i (0, 0)))

/-- Modelled from the spec: `loc` on a frame with known divisions: records
tasks only for partitions whose division range intersects `[a, b]`, and
fails on unknown divisions. -/
def locFrame (a b : Int) (df : DFrame) : Option DFrame :=
  df.divisions.map fun ds =>
    let idxs := (locTouched ds a b).filter (fun i => decide (i < df.keys.length))
    { dask := df.dask ++ locNodes a b df.next df.keys idxs
      keys := partKeys df.next idxs.length
      divisions :=
        some (if idxs.isEmpty then []
          else (ds.drop (idxs.headD 0)).take (idxs.length + 1))
      next := df.next + 1 }

/-- Modelled from the spec: membership of key `k` in the partition range
bounded by divisions `i` and `i+1`; only the final partition includes its
upper boundary. -/
def inPart (ds : List Int) (i : Nat) (k : Int) : Prop :=
  ds.getD i 0 ≤ k ∧
    (if i + 2 = ds.length then k ≤ ds.getD (i + 1) 0 else k < ds.getD (i + 1) 0)

/-- Modelled from the spec: strictly increasing divisions when present. -/
def divOK : Option (List Int) → Prop
  | none => True
  | some ds => List.Chain' (· < ·) ds

/-- Replace the index by a chosen column. -/
def reKey (col : Row → Int) (r : Row) : Row := ⟨col r, r.amount⟩

/-- Boolean comparison of rows by index key. -/
def leB (r s : Row) : Bool := decide (r.key ≤ s.key)

/-- Sort a materialized table by its index key. -/
def sortByKey (rows : List Row) : List Row := rows.mergeSort leB

/-- Sampled division boundary candidates from the sorted keys. -/
def sampleBoundaries (ks : List Int) (p : Nat) (m : Int) : List Int :=
  ((List.range p).map (fun i => ks.getD (i * ks.length / p) m)) ++ [m]

/-- Modelled from the spec: divisions recomputed by sampling the sorted
keys; adjacent duplicate boundaries are dropped to keep the sequence
strictly increasing. -/
def divisionsOf (ks : List Int) (p : Nat) : List Int :=
  match ks.getLast? with
  | none => []
  | some m => (sampleBoundaries ks p m).destutter (· < ·)

/-- Split sorted rows into partitions delimited by the divisions; the final
partition is closed on the right. -/
def splitGo : List Int → List Row → List (List Row)
  | [], _ => []
  | [_], rows => [rows]
  | [_, _], rows => [rows]
  | _ :: d₁ :: d₂ :: rest, rows =>
    rows.filter (fun r => decide (r.key < d₁)) ::
      splitGo (d₁ :: d₂ :: rest) (rows.filter (fun r => decide (d₁ ≤ r.key)))

/-- Modelled from the spec: `set_index(col)` — the inherently non-lazy
operation: it materializes the whole table at call time, re-keys it by the
chosen column, sorts it, recomputes divisions by sampling, and returns a
frame over a fresh graph of fully materialized source partitions with
known divisions. -/
def setIndex (col : Row → Int) (df : DFrame) : DFrame :=
  let rows := sortByKey ((computeFrame df).map (reKey col))
  let ds := divisionsOf (rows.map Row.key) (max 1 df.keys.length)
  let parts := splitGo ds rows
  { dask := sourceGraph parts
    keys := partKeys 0 parts.length
    divisions := some ds
    next := 1 }

/-- Rows stored in a source node (empty for deferred nodes). -/
def nodeRows (p : Key × Task) : List Row :=
  match p.2.fn with
  | .source rows => rows
  | _ => []

/-- Eager pandas-style selection on one concatenated table. -/
def pFilterPos (rows : List Row) : List Row :=
  rows.filter (fun r => decide (0 < r.amount))

/-- Eager pandas-style elementwise addition. -/
def pAddConst (c : Int) (rows : List Row) : List Row :=
  rows.map (fun r => ⟨r.key, r.amount + c⟩)

/-- Eager pandas-style sum of the payload column. -/
def pSum (rows : List Row) : Int := sumAmounts rows

/-- Eager pandas-style mean of the payload column. -/
def pMean (rows : List Row) : Int := sumAmounts rows / (rows.length : Int)

/-- Modelled from the spec: the lazily built dataframe expressions the
notebook demonstrates, over one ingested table. -/
inductive FExpr where
  | src
  | filterPos (e : FExpr)
  | addConst (c : Int) (e : FExpr)
  | groupbySum (e : FExpr)

/-- Scalar aggregate expressions over a frame expression. -/
inductive SExpr where
  | sumA (e : FExpr)
  | meanA (e : FExpr)

/-- Build the lazy frame of an expression from ingested files. -/
def buildF (files : List (List Row)) : FExpr → DFrame
  | .src => readCsv files
  | .filterPos e => filterPositive (buildF files e)
  | .addConst c e => addConstant c (buildF files e)
  | .groupbySum e => groupbySum (buildF files e)

/-- Build the lazy scalar of an aggregate expression. -/
def buildS (files : List (List Row)) : SExpr → DScalar
  | .sumA e => sumAmount (buildF files e)
  | .meanA e => meanAmount (buildF files e)

/-- Eager single-table pandas semantics of a frame expression. -/
def pandasF (rows : List Row) : FExpr → List Row
  | .src => rows
  | .filterPos e => pFilterPos (pandasF rows e)
  | .addConst c e => pAddConst c (pandasF rows e)
  | .groupbySum e => groupSum (pandasF rows e)

/-- Eager single-table pandas semantics of a scalar expression. -/
def pandasS (rows : List Row) : SExpr → Int
  | .sumA e => pSum (pandasF rows e)
  | .meanA e => pMean (pandasF rows e)

/-- Partition-level reference semantics of a frame expression. -/
def partsF (files : List (List Row)) : FExpr → List (List Row)
  | .src => files
  | .filterPos e => (partsF files e).map pFilterPos
  | .addConst c e => (partsF files e).map (pAddConst c)
  | .groupbySum e => [groupSum (partsF files e).flatten]

/-- Modelled from the spec: the invariants a frame maintains: well-formed
graph, partition keys naming nodes of the graph, all node layers below the
fresh counter, and distinct partition keys. -/
def FrameWF (df : DFrame) : Prop :=
  WFg df.dask = true
    ∧ (∀ k ∈ df.keys, k ∈ gKeys df.dask)
    ∧ (∀ k ∈ gKeys df.dask, k.1 < df.next)
    ∧ df.keys.Nodup

/-- Concrete one-partition input used by witnesses. -/
def fileA : List Row := [⟨1, 2⟩]

/-- Second concrete one-partition input used by witnesses. -/
def fileB : List Row := [⟨3, 4⟩]

/-- Concrete graph used by witnesses: a lazy sum over one CSV shard. -/
def graphW : TaskGraph := (sumAmount (readCsv [fileA])).dask

/-- Concrete two-shard sum graph used by the determinism witness. -/
def graphW₂ : TaskGraph := (sumAmount (readCsv [fileA, fileB])).dask

/-- Store produced by the sequential run of `graphW`. -/
def envW : Env :=
  [((2, 0), .scalar 2), ((1, 0), .scalar 2), ((0, 0), .table [⟨1, 2⟩])]

/-- Store produced by the sequential schedule on `graphW₂`. -/
def envW₂ : Env :=
  [((2, 0), .scalar 6), ((1, 1), .scalar 4), ((1, 0), .scalar 2),
    ((0, 1), .table [⟨3, 4⟩]), ((0, 0), .table [⟨1, 2⟩])]

/-- Store produced by a swapped (parallel-style) schedule on `graphW₂`. -/
def envW₃ : Env :=
  [((2, 0), .scalar 6), ((1, 0), .scalar 2), ((1, 1), .scalar 4),
    ((0, 0), .table [⟨1, 2⟩]), ((0, 1), .table [⟨3, 4⟩])]

theorem alookup_append_some {β : Type} {k : Key} {g h : List (Key × β)} {v : β}
    (hg : alookup k g = some v) : alookup k (g ++ h) = some v := by
  induction g with
  | nil => simp [alookup] at hg
  | cons p rest ih =>
    obtain ⟨k₁, v₁⟩ := p
    by_cases hk : k₁ = k
    · simpa [alookup, hk] using hg
    · rw [List.cons_append]
      simp only [alookup, if_neg hk] at hg ⊢
      exact ih hg

theorem alookup_append_none {β : Type} {k : Key} {g h : List (Key × β)}
    (hg : alookup k g = none) : alookup k (g ++ h) = alookup k h := by
  induction g with
  | nil => simp
  | cons p rest ih =>
    obtain ⟨k₁, v₁⟩ := p
    by_cases hk : k₁ = k
    · simp [alookup, hk] at hg
    · rw [List.cons_append]
      simp only [alookup, if_neg hk] at hg ⊢
      exact ih hg

theorem alookup_none_iff {β : Type} {k : Key} {l : List (Key × β)} :
    alookup k l = none ↔ k ∉ l.map Prod.fst := by
  induction l with
  | nil => simp [alookup]
  | cons p rest ih =>
    obtain ⟨k₁, v₁⟩ := p
    by_cases hk : k₁ = k
    · simp [alookup, hk]
    · simp [alookup, hk, ih, Ne.symm hk]

theorem alookup_isSome_iff {β : Type} {k : Key} {l : List (Key × β)} :
    (alookup k l).isSome ↔ k ∈ l.map Prod.fst := by
  rw [← Option.ne_none_iff_isSome, ne_eq, alookup_none_iff, not_not]

theorem mapOpt_congr {α β : Type} {f f₂ : α → Option β} {l : List α}
    (h : ∀ a ∈ l, f a = f₂ a) : mapOpt f l = mapOpt f₂ l := by
  induction l with
  | nil => rfl
  | cons a rest ih =>
    simp only [mapOpt]
    rw [h a (List.mem_cons_self a rest), ih (fun x hx => h x (List.mem_cons_of_mem a hx))]

theorem mapOpt_isSome {α β : Type} {f : α → Option β} {l : List α} {bs : List β}
    (h : mapOpt f l = some bs) {a : α} (ha : a ∈ l) : (f a).isSome := by
  induction l generalizing bs with
  | nil => cases ha
  | cons x rest ih =>
    simp only [mapOpt] at h
    rcases hfx : f x with _ | b
    · rw [hfx] at h; cases h
    · rw [hfx] at h
      rcases hrest : mapOpt f rest with _ | bs₁
      · rw [hrest] at h; cases h
      · rcases List.mem_cons.mp ha with rfl | ha₂
        · simp [hfx]
        · exact ih hrest ha₂

theorem runStep_some {g : TaskGraph} {env env₁ : Env} {k : Key}
    (h : runStep g env k = some env₁) :
    ∃ t args v, alookup k g = some t ∧ alookup k env = none ∧
      mapOpt (fun d => alookup d env) t.deps = some args ∧
      t.fn.apply args = some v ∧ env₁ = (k, v) :: env := by
  unfold runStep at h
  rcases hg : alookup k g with _ | t
  case none => rw [hg] at h; cases h
  rw [hg, Option.some_bind] at h
  rcases he : alookup k env with _ | w
  case some => rw [he] at h; simp at h
  rw [he] at h
  simp only [Option.isSome_none, Bool.false_eq_true, if_false] at h
  rcases hm : mapOpt (fun d => alookup d env) t.deps with _ | args
  case none => rw [hm] at h; cases h
  rw [hm, Option.some_bind] at h
  rcases ha : t.fn.apply args with _ | v
  case none => rw [ha] at h; cases h
  rw [ha] at h
  simp only [Option.map_some'] at h
  exact ⟨t, args, v, rfl, rfl, hm, ha, (Option.some_inj.mp h).symm⟩

theorem runSched_preserve {g : TaskGraph} {s : List Key} {env env₂ : Env}
    (h : runSched g s env = some env₂) {k : Key} {v : Value}
    (hk : alookup k env = some v) : alookup k env₂ = some v := by
  induction s generalizing env with
  | nil =>
    simp only [runSched] at h
    exact (Option.some_inj.mp h) ▸ hk
  | cons a rest ih =>
    simp only [runSched] at h
    rcases hst : runStep g env a with _ | env₁
    · rw [hst] at h; cases h
    · rw [hst] at h
      obtain ⟨t, args, v₁, _, hae, _, _, rfl⟩ := runStep_some hst
      refine ih h ?_
      have hak : a ≠ k := by rintro rfl; rw [hae] at hk; cases hk
      simpa [alookup, hak] using hk

theorem runSched_dom {g : TaskGraph} {s : List Key} {env env₂ : Env}
    (h : runSched g s env = some env₂) (k : Key) :
    (alookup k env₂).isSome ↔ (alookup k env).isSome ∨ k ∈ s := by
  induction s generalizing env with
  | nil =>
    simp only [runSched] at h
    rw [Option.some_inj.mp h]
    simp
  | cons a rest ih =>
    simp only [runSched] at h
    rcases hst : runStep g env a with _ | env₁
    · rw [hst] at h; cases h
    · rw [hst] at h
      obtain ⟨t, args, v₁, _, hae, _, _, rfl⟩ := runStep_some hst
      rw [ih h]
      by_cases hak : a = k
      · subst hak
        simp [alookup]
      · simp only [alookup, if_neg hak, List.mem_cons]
        constructor
        · rintro (hs | hr)
          · exact Or.inl hs
          · exact Or.inr (Or.inr hr)
        · rintro (hs | rfl | hr)
          · exact Or.inl hs
          · exact absurd rfl hak
          · exact Or.inr hr

theorem runSched_mem_graph {g : TaskGraph} {s : List Key} {env env₂ : Env}
    (h : runSched g s env = some env₂) {k : Key} (hk : k ∈ s) :
    (alookup k g).isSome := by
  induction s generalizing env with
  | nil => cases hk
  | cons a rest ih =>
    simp only [runSched] at h
    rcases hst : runStep g env a with _ | env₁
    · rw [hst] at h; cases h
    · rw [hst] at h
      rcases List.mem_cons.mp hk with rfl | hk₂
      · obtain ⟨t, _, _, hat, _⟩ := runStep_some hst
        simp [hat]
      · exact ih h hk₂

theorem posIn_lt_of_mem_take {d : Key} {s : List Key} {n : Nat}
    (h : d ∈ s.take n) : posIn d s < n := by
  induction s generalizing n with
  | nil => simp at h
  | cons a rest ih =>
    cases n with
    | zero => simp at h
    | succ m =>
      rw [List.take_succ_cons] at h
      rcases List.mem_cons.mp h with rfl | h₂
      · simp [posIn]
      · by_cases had : a = d
        · simp [posIn, had]
        · simp only [posIn, if_neg had]
          exact Nat.succ_lt_succ (ih h₂)

theorem runSched_dep_order {g : TaskGraph} {s : List Key} {env env₂ : Env}
    (h : runSched g s env = some env₂) {k d : Key} {t : Task}
    (hkt : alookup k g = some t) (hd : d ∈ t.deps) (hks : k ∈ s) :
    d ∈ s.take (posIn k s) ∨ (alookup d env).isSome := by
  induction s generalizing env with
  | nil => cases hks
  | cons a rest ih =>
    simp only [runSched] at h
    rcases hst : runStep g env a with _ | env₁
    · rw [hst] at h; cases h
    · rw [hst] at h
      obtain ⟨t₁, args, v₁, hat, hae, hmap, happ, rfl⟩ := runStep_some hst
      by_cases hak : a = k
      · subst hak
        rw [hat] at hkt
        injection hkt with ht
        subst ht
        exact Or.inr (mapOpt_isSome hmap hd)
      · have hkrest : k ∈ rest := by
          rcases List.mem_cons.mp hks with rfl | hr
          · exact absurd rfl hak
          · exact hr
        rcases ih h hkrest with hin | hsome
        · left
          simp only [posIn, if_neg hak, List.take_succ_cons]
          exact List.mem_cons_of_mem a hin
        · by_cases hda : a = d
          · subst hda
            left
            simp [posIn, if_neg hak]
          · right
            simpa [alookup, hda] using hsome

/-- Claim helper: in a completed run, a consumed node occurs in the schedule
strictly before its consumer. -/
theorem run_dep_order {g : TaskGraph} {s : List Key} {env : Env} {k d : Key} {t : Task}
    (h : run g s = some env) (hkt : alookup k g = some t) (hd : d ∈ t.deps)
    (hks : k ∈ s) : d ∈ s ∧ posIn d s < posIn k s := by
  rcases runSched_dep_order (h := h) hkt hd hks with hin | hsome
  · exact ⟨List.mem_of_mem_take hin, posIn_lt_of_mem_take hin⟩
  · simp [alookup] at hsome

theorem runSched_eqn {g : TaskGraph} {s : List Key} {env env₂ : Env}
    (h : runSched g s env = some env₂) {k : Key} (hk : k ∈ s) :
    ∃ t args v, alookup k g = some t ∧
      mapOpt (fun d => alookup d env₂) t.deps = some args ∧
      t.fn.apply args = some v ∧ alookup k env₂ = some v := by
  induction s generalizing env with
  | nil => cases hk
  | cons a rest ih =>
    simp only [runSched] at h
    rcases hst : runStep g env a with _ | env₁
    · rw [hst] at h; cases h
    · rw [hst] at h
      obtain ⟨t₁, args, v₁, hat, hae, hmap, happ, rfl⟩ := runStep_some hst
      by_cases hak : a = k
      · subst hak
        refine ⟨t₁, args, v₁, hat, ?_, happ, ?_⟩
        · rw [← hmap]
          apply mapOpt_congr
          intro d hd
          have hds : (alookup d env).isSome := mapOpt_isSome hmap hd
          obtain ⟨w, hw⟩ := Option.isSome_iff_exists.mp hds
          have hda : a ≠ d := by rintro rfl; rw [hae] at hw; cases hw
          have hw₁ : alookup d ((a, v₁) :: env) = some w := by
            simpa [alookup, hda] using hw
          rw [runSched_preserve h hw₁, hw]
        · exact runSched_preserve h (by simp [alookup])
      · refine ih h ?_
        rcases List.mem_cons.mp hk with rfl | hr
        · exact absurd rfl hak
        · exact hr

theorem depsOK_edge {seen : List Key} {g : TaskGraph} (h : depsOK seen g = true)
    {k d : Key} {t : Task} (hkt : alookup k g = some t) (hd : d ∈ t.deps) :
    d ∈ seen ∨ (d ∈ g.map Prod.fst ∧
      posIn d (g.map Prod.fst) < posIn k (g.map Prod.fst)) := by
  induction g generalizing seen with
  | nil => simp [alookup] at hkt
  | cons p rest ih =>
    obtain ⟨k₀, t₀⟩ := p
    simp only [depsOK, Bool.and_eq_true, List.all_eq_true, decide_eq_true_eq] at h
    obtain ⟨⟨hk₀, hdeps⟩, hrest⟩ := h
    by_cases hk : k₀ = k
    · subst hk
      have ht : t₀ = t := by simpa [alookup] using hkt
      subst ht
      left
      exact hdeps d hd
    · have hkt₂ : alookup k rest = some t := by simpa [alookup, hk] using hkt
      rcases ih hrest hkt₂ with hseen | ⟨hmem, hlt⟩
      · rcases List.mem_cons.mp hseen with rfl | hs₂
        · right
          refine ⟨by simp, ?_⟩
          simp [posIn, hk]
        · exact Or.inl hs₂
      · right
        refine ⟨by simp [hmem], ?_⟩
        by_cases hdk : k₀ = d
        · simp only [List.map_cons, posIn, if_pos hdk, if_neg hk]
          exact Nat.succ_pos _
        · simp only [List.map_cons, posIn, if_neg hdk, if_neg hk]
          exact Nat.succ_lt_succ hlt

theorem WFg_edge {g : TaskGraph} {k d : Key} (h : WFg g = true) (he : Edge g k d) :
    posIn d (g.map Prod.fst) < posIn k (g.map Prod.fst) := by
  obtain ⟨t, hkt, hd⟩ := he
  rcases depsOK_edge h hkt hd with h₀ | ⟨_, hlt⟩
  · cases h₀
  · exact hlt

theorem transGen_edge_lt {g : TaskGraph} (h : WFg g = true) {a b : Key}
    (hp : Relation.TransGen (Edge g) a b) :
    posIn b (g.map Prod.fst) < posIn a (g.map Prod.fst) := by
  induction hp with
  | single he => exact WFg_edge h he
  | tail _ he ih => exact lt_trans (WFg_edge h he) ih

theorem run_det_aux {g : TaskGraph} (hwf : WFg g = true) {s₁ s₂ : List Key}
    {e₁ e₂ : Env} (h₁ : run g s₁ = some e₁) (h₂ : run g s₂ = some e₂) :
    ∀ n k, posIn k (g.map Prod.fst) < n → k ∈ s₁ → k ∈ s₂ →
      alookup k e₁ = alookup k e₂ := by
  intro n
  induction n with
  | zero => intro k hk; exact absurd hk (Nat.not_lt_zero _)
  | succ n ih =>
    intro k hk hk₁ hk₂
    obtain ⟨t, args₁, v₁, hkt, hmap₁, happ₁, hv₁⟩ := runSched_eqn (h := h₁) hk₁
    obtain ⟨t₂, args₂, v₂, hkt₂, hmap₂, happ₂, hv₂⟩ := runSched_eqn (h := h₂) hk₂
    rw [hkt] at hkt₂
    injection hkt₂ with ht
    subst ht
    have hmm : mapOpt (fun d => alookup d e₁) t.deps =
        mapOpt (fun d => alookup d e₂) t.deps := by
      apply mapOpt_congr
      intro d hd
      have hlt : posIn d (g.map Prod.fst) < posIn k (g.map Prod.fst) :=
        WFg_edge hwf ⟨t, hkt, hd⟩
      have hd₁ : (alookup d e₁).isSome := mapOpt_isSome hmap₁ hd
      have hd₂ : (alookup d e₂).isSome := mapOpt_isSome hmap₂ hd
      have hdm₁ : d ∈ s₁ := by
        rcases (runSched_dom (h := h₁) d).mp hd₁ with hbase | hs
        · simp [alookup] at hbase
        · exact hs
      have hdm₂ : d ∈ s₂ := by
        rcases (runSched_dom (h := h₂) d).mp hd₂ with hbase | hs
        · simp [alookup] at hbase
        · exact hs
      exact ih d (lt_of_lt_of_le hlt (Nat.lt_succ_iff.mp hk)) hdm₁ hdm₂
    rw [hmap₁, hmap₂] at hmm
    injection hmm with hargs
    subst hargs
    rw [happ₁] at happ₂
    injection happ₂ with hv
    subst hv
    rw [hv₁, hv₂]

/-- Claim C1: every logical transformation of a frame (row selection,
elementwise arithmetic, aggregation, groupby-aggregate) leaves all existing
graph nodes — and hence all partition data — untouched, and only appends
task nodes recording intent; the appended nodes are a function of the
partition keys and the fresh-layer counter alone, so no data influences,
and no computation happens at, the call. -/
theorem transformations_only_record_intent (df df₂ : DFrame) (c : Int)
    (hk : df₂.keys = df.keys) (hn : df₂.next = df.next) :
    ((filterPositive df).dask = df.dask ++ mapNodes .filterPos df.next df.keys
        ∧ (addConstant c df).dask = df.dask ++ mapNodes (.addConst c) df.next df.keys
        ∧ (sumAmount df).dask = df.dask ++ mapNodes .sumPart df.next df.keys
            ++ combineNode .sumCombine df.next df.keys.length (df.next + 1, 0)
        ∧ (meanAmount df).dask = df.dask ++ mapNodes .sumCountPart df.next df.keys
            ++ combineNode .meanCombine df.next df.keys.length (df.next + 1, 0)
        ∧ (groupbySum df).dask = df.dask ++ mapNodes .groupPart df.next df.keys
            ++ combineNode .groupCombine df.next df.keys.length (df.next + 1, 0))
      ∧ (∀ k t, alookup k df.dask = some t →
          alookup k (filterPositive df).dask = some t
            ∧ alookup k (addConstant c df).dask = some t
            ∧ alookup k (sumAmount df).dask = some t
            ∧ alookup k (meanAmount df).dask = some t
            ∧ alookup k (groupbySum df).dask = some t)
      ∧ (filterPositive df).dask.drop df.dask.length
          = (filterPositive df₂).dask.drop df₂.dask.length := by
  refine ⟨⟨rfl, rfl, rfl, rfl, rfl⟩, ?_, ?_⟩
  · intro k t hkt
    exact ⟨alookup_append_some hkt, alookup_append_some hkt,
      alookup_append_some (alookup_append_some hkt),
      alookup_append_some (alookup_append_some hkt),
      alookup_append_some (alookup_append_some hkt)⟩
  · show (df.dask ++ mapNodes .filterPos df.next df.keys).drop df.dask.length
      = (df₂.dask ++ mapNodes .filterPos df₂.next df₂.keys).drop df₂.dask.length
    rw [List.drop_left, List.drop_left, hk, hn]

/-- Witness for C1 at concrete one-partition frames with different data. -/
theorem transformations_only_record_intent_witness :
    ((filterPositive (readCsv [fileA])).dask
          = (readCsv [fileA]).dask ++ mapNodes .filterPos (readCsv [fileA]).next (readCsv [fileA]).keys
        ∧ (addConstant 1 (readCsv [fileA])).dask
          = (readCsv [fileA]).dask ++ mapNodes (.addConst 1) (readCsv [fileA]).next (readCsv [fileA]).keys
        ∧ (sumAmount (readCsv [fileA])).dask
          = (readCsv [fileA]).dask ++ mapNodes .sumPart (readCsv [fileA]).next (readCsv [fileA]).keys
            ++ combineNode .sumCombine (readCsv [fileA]).next (readCsv [fileA]).keys.length ((readCsv [fileA]).next + 1, 0)
        ∧ (meanAmount (readCsv [fileA])).dask
          = (readCsv [fileA]).dask ++ mapNodes .sumCountPart (readCsv [fileA]).next (readCsv [fileA]).keys
            ++ combineNode .meanCombine (readCsv [fileA]).next (readCsv [fileA]).keys.length ((readCsv [fileA]).next + 1, 0)
        ∧ (groupbySum (readCsv [fileA])).dask
          = (readCsv [fileA]).dask ++ mapNodes .groupPart (readCsv [fileA]).next (readCsv [fileA]).keys
            ++ combineNode .groupCombine (readCsv [fileA]).next (readCsv [fileA]).keys.length ((readCsv [fileA]).next + 1, 0))
      ∧ (∀ k t, alookup k (readCsv [fileA]).dask = some t →
          alookup k (filterPositive (readCsv [fileA])).dask = some t
            ∧ alookup k (addConstant 1 (readCsv [fileA])).dask = some t
            ∧ alookup k (sumAmount (readCsv [fileA])).dask = some t
            ∧ alookup k (meanAmount (readCsv [fileA])).dask = some t
            ∧ alookup k (groupbySum (readCsv [fileA])).dask = some t)
      ∧ (filterPositive (readCsv [fileA])).dask.drop (readCsv [fileA]).dask.length
          = (filterPositive (readCsv [fileB])).dask.drop (readCsv [fileB]).dask.length :=
  transformations_only_record_intent (readCsv [fileA]) (readCsv [fileB]) 1 rfl rfl

theorem mem_keysGo {layer i n : Nat} {k : Key} :
    k ∈ keysGo layer i n ↔ k.1 = layer ∧ i ≤ k.2 ∧ k.2 < i + n := by
  obtain ⟨k1, k2⟩ := k
  induction n generalizing i with
  | zero =>
    simp only [keysGo, List.not_mem_nil, false_iff]
    omega
  | succ n ih =>
    simp only [keysGo, List.mem_cons, Prod.mk.injEq, ih]
    omega

theorem keysGo_nodup (layer i n : Nat) : (keysGo layer i n).Nodup := by
  induction n generalizing i with
  | zero => exact List.nodup_nil
  | succ n ih =>
    refine List.Nodup.cons ?_ (ih (i + 1))
    simp only [mem_keysGo]
    omega

theorem gKeys_append {β : Type} (a b : List (Key × β)) :
    gKeys (a ++ b) = gKeys a ++ gKeys b := List.map_append _ _ _

theorem gKeys_mapNodesGo (fn : Func) (layer i : Nat) (ks : List Key) :
    gKeys (mapNodesGo fn layer i ks) = keysGo layer i ks.length := by
  induction ks generalizing i with
  | nil => rfl
  | cons k rest ih =>
    simp only [mapNodesGo, gKeys, List.map_cons, List.length_cons, keysGo]
    rw [← ih (i + 1)]
    rfl

theorem gKeys_mapNodes (fn : Func) (layer : Nat) (ks : List Key) :
    gKeys (mapNodes fn layer ks) = keysGo layer 0 ks.length :=
  gKeys_mapNodesGo fn layer 0 ks

theorem gKeys_sourceGo (i : Nat) (parts : List (List Row)) :
    gKeys (sourceGo i parts) = keysGo 0 i parts.length := by
  induction parts generalizing i with
  | nil => rfl
  | cons p rest ih =>
    simp only [sourceGo, gKeys, List.map_cons, List.length_cons, keysGo]
    rw [← ih (i + 1)]
    rfl

theorem depsOK_congr {seen₁ seen₂ : List Key} {g : TaskGraph}
    (h : ∀ k, k ∈ seen₁ ↔ k ∈ seen₂) : depsOK seen₁ g = depsOK seen₂ g := by
  induction g generalizing seen₁ seen₂ with
  | nil => rfl
  | cons p rest ih =>
    obtain ⟨k, t⟩ := p
    simp only [depsOK]
    have h₁ : decide (k ∉ seen₁) = decide (k ∉ seen₂) := by simp [h k]
    have h₂ : t.deps.all (fun d => decide (d ∈ seen₁))
        = t.deps.all (fun d => decide (d ∈ seen₂)) := by
      rw [Bool.eq_iff_iff]
      simp only [List.all_eq_true, decide_eq_true_eq]
      exact ⟨fun ha d hd => (h d).mp (ha d hd), fun ha d hd => (h d).mpr (ha d hd)⟩
    have h₃ : ∀ x : Key, x ∈ k :: seen₁ ↔ x ∈ k :: seen₂ := by
      intro x
      simp [h x]
    rw [h₁, h₂, ih h₃]

theorem depsOK_append {seen : List Key} {g₁ g₂ : TaskGraph} :
    depsOK seen (g₁ ++ g₂) = true ↔
      depsOK seen g₁ = true ∧ depsOK (gKeys g₁ ++ seen) g₂ = true := by
  induction g₁ generalizing seen with
  | nil => simp [depsOK, gKeys]
  | cons p rest ih =>
    obtain ⟨k, t⟩ := p
    have hiff : ∀ x : Key, x ∈ gKeys rest ++ k :: seen ↔ x ∈ gKeys ((k, t) :: rest) ++ seen := by
      intro x
      simp only [gKeys, List.map_cons, List.mem_append, List.mem_cons]
      tauto
    rw [List.cons_append]
    show (decide (k ∉ seen) && t.deps.all (fun d => decide (d ∈ seen))
        && depsOK (k :: seen) (rest ++ g₂)) = true ↔ _
    rw [Bool.and_eq_true, Bool.and_eq_true, ih, depsOK_congr hiff]
    show _ ↔ ((decide (k ∉ seen) && t.deps.all (fun d => decide (d ∈ seen))
        && depsOK (k :: seen) rest) = true ∧ _)
    rw [Bool.and_eq_true, Bool.and_eq_true]
    tauto

theorem depsOK_mapNodesGo {fn : Func} {layer i : Nat} {ks seen : List Key}
    (hdeps : ∀ k ∈ ks, k ∈ seen)
    (hfresh : ∀ k ∈ seen, k.1 = layer → k.2 < i) :
    depsOK seen (mapNodesGo fn layer i ks) = true := by
  induction ks generalizing i seen with
  | nil => rfl
  | cons k rest ih =>
    simp only [mapNodesGo, depsOK, Bool.and_eq_true, decide_eq_true_eq, List.all_eq_true]
    refine ⟨⟨?_, ?_⟩, ?_⟩
    · intro hmem
      exact absurd (hfresh (layer, i) hmem rfl) (lt_irrefl i)
    · intro d hd
      rw [List.mem_singleton.mp hd]
      exact hdeps k (List.mem_cons_self k rest)
    · refine ih ?_ ?_
      · intro x hx
        exact List.mem_cons_of_mem _ (hdeps x (List.mem_cons_of_mem _ hx))
      · intro x hx hxl
        rcases List.mem_cons.mp hx with rfl | hx₂
        · exact Nat.lt_succ_self i
        · exact Nat.lt_succ_of_lt (hfresh x hx₂ hxl)

theorem depsOK_sourceGo {i : Nat} {parts : List (List Row)} {seen : List Key}
    (hfresh : ∀ k ∈ seen, k.1 = 0 → k.2 < i) :
    depsOK seen (sourceGo i parts) = true := by
  induction parts generalizing i seen with
  | nil => rfl
  | cons p rest ih =>
    simp only [sourceGo, depsOK, Bool.and_eq_true, decide_eq_true_eq, List.all_eq_true]
    refine ⟨⟨?_, ?_⟩, ?_⟩
    · intro hmem
      exact absurd (hfresh (0, i) hmem rfl) (lt_irrefl i)
    · intro d hd
      exact absurd hd (List.not_mem_nil d)
    · refine ih ?_
      intro x hx hx0
      rcases List.mem_cons.mp hx with rfl | hx₂
      · exact Nat.lt_succ_self i
      · exact Nat.lt_succ_of_lt (hfresh x hx₂ hx0)

theorem getD_mem_of_lt {α : Type} {l : List α} {n : Nat} (d : α)
    (h : n < l.length) : l.getD n d ∈ l := by
  induction l generalizing n with
  | nil => cases h
  | cons a rest ih =>
    cases n with
    | zero => exact List.mem_cons_self a rest
    | succ m =>
      rw [List.getD_cons_succ]
      exact List.mem_cons_of_mem a (ih (Nat.lt_of_succ_lt_succ h))

theorem depsOK_nodup {seen : List Key} {g : TaskGraph} (h : depsOK seen g = true) :
    (gKeys g).Nodup ∧ ∀ k ∈ gKeys g, k ∉ seen := by
  induction g generalizing seen with
  | nil => exact ⟨List.nodup_nil, fun k hk => absurd hk (List.not_mem_nil k)⟩
  | cons p rest ih =>
    obtain ⟨k₀, t₀⟩ := p
    simp only [depsOK, Bool.and_eq_true, decide_eq_true_eq] at h
    obtain ⟨⟨hk₀, _⟩, hrest⟩ := h
    obtain ⟨hnd, hmem⟩ := ih hrest
    constructor
    · refine List.Nodup.cons ?_ hnd
      intro hk
      exact hmem k₀ hk (List.mem_cons_self k₀ seen)
    · intro k hk
      rcases List.mem_cons.mp hk with rfl | hk₂
      · exact hk₀
      · intro hseen
        exact hmem k hk₂ (List.mem_cons_of_mem _ hseen)

theorem frameWF_mk_source (parts : List (List Row)) (dv : Option (List Int)) :
    FrameWF ⟨sourceGraph parts, partKeys 0 parts.length, dv, 1⟩ := by
  refine ⟨?_, ?_, ?_, ?_⟩
  · exact depsOK_sourceGo (fun k hk _ => absurd hk (List.not_mem_nil k))
  · intro k hk
    show k ∈ gKeys (sourceGo 0 parts)
    rw [gKeys_sourceGo]
    exact hk
  · intro k hk
    have hk₂ : k ∈ keysGo 0 0 parts.length := by
      rw [← gKeys_sourceGo]
      exact hk
    rw [mem_keysGo] at hk₂
    show k.1 < 1
    omega
  · exact keysGo_nodup 0 0 parts.length

theorem frameWF_readCsv (files : List (List Row)) : FrameWF (readCsv files) :=
  frameWF_mk_source files none

theorem frameWF_setIndex (col : Row → Int) (df : DFrame) :
    FrameWF (setIndex col df) :=
  frameWF_mk_source _ _

theorem depsOK_mapLayer {df : DFrame} (hwf : WFg df.dask = true)
    (hkeys : ∀ k ∈ df.keys, k ∈ gKeys df.dask)
    (hlayer : ∀ k ∈ gKeys df.dask, k.1 < df.next)
    {sel : List Key} (hsel : ∀ k ∈ sel, k ∈ gKeys df.dask) (fn : Func) :
    WFg (df.dask ++ mapNodesGo fn df.next 0 sel) = true := by
  rw [WFg, depsOK_append]
  refine ⟨hwf, ?_⟩
  refine depsOK_mapNodesGo ?_ ?_
  · intro k hk
    rw [List.append_nil]
    exact hsel k hk
  · intro k hk hkl
    rw [List.append_nil] at hk
    have := hlayer k hk
    omega

theorem frameWF_mapOp {df : DFrame} (h : FrameWF df) (fn : Func) :
    FrameWF (mapOp fn df) := by
  obtain ⟨hwf, hkeys, hlayer, hnd⟩ := h
  refine ⟨depsOK_mapLayer hwf hkeys hlayer hkeys fn, ?_, ?_, ?_⟩
  · intro k hk
    show k ∈ gKeys (df.dask ++ mapNodesGo fn df.next 0 df.keys)
    rw [gKeys_append, gKeys_mapNodesGo, List.mem_append]
    exact Or.inr hk
  · intro k hk
    have hk₂ : k ∈ gKeys df.dask ++ keysGo df.next 0 df.keys.length := by
      rw [← gKeys_mapNodesGo fn df.next 0 df.keys, ← gKeys_append]
      exact hk
    show k.1 < df.next + 1
    rcases List.mem_append.mp hk₂ with hl | hr
    · exact Nat.lt_succ_of_lt (hlayer k hl)
    · rw [mem_keysGo] at hr
      omega
  · exact keysGo_nodup df.next 0 df.keys.length

theorem wfg_layered {df : DFrame} (h : FrameWF df) (pfn cfn : Func) :
    WFg (df.dask ++ mapNodes pfn df.next df.keys
      ++ combineNode cfn df.next df.keys.length (df.next + 1, 0)) = true := by
  obtain ⟨hwf, hkeys, hlayer, hnd⟩ := h
  rw [WFg, depsOK_append]
  refine ⟨depsOK_mapLayer hwf hkeys hlayer hkeys pfn, ?_⟩
  simp only [combineNode, depsOK, Bool.and_eq_true, decide_eq_true_eq, List.all_eq_true,
    List.append_nil]
  refine ⟨⟨?_, ?_⟩, trivial⟩
  · intro hmem
    rw [gKeys_append, gKeys_mapNodes, List.mem_append] at hmem
    rcases hmem with hl | hr
    · have h₂ := hlayer _ hl
      have h₃ : (df.next + 1, 0).1 < df.next := h₂
      omega
    · rw [mem_keysGo] at hr
      have h₃ : (df.next + 1, 0).1 = df.next := hr.1
      omega
  · intro d hd
    rw [gKeys_append, gKeys_mapNodes, List.mem_append]
    exact Or.inr hd

theorem wfg_aggOp {df : DFrame} (h : FrameWF df) (pfn cfn : Func) :
    WFg (aggOp pfn cfn df).dask = true :=
  wfg_layered h pfn cfn

theorem frameWF_groupbySum {df : DFrame} (h : FrameWF df) :
    FrameWF (groupbySum df) := by
  obtain ⟨hwf, hkeys, hlayer, hnd⟩ := h
  refine ⟨wfg_layered ⟨hwf, hkeys, hlayer, hnd⟩ .groupPart .groupCombine, ?_, ?_, ?_⟩
  · intro k hk
    rw [List.mem_singleton.mp hk]
    show (df.next + 1, 0) ∈ gKeys (df.dask ++ mapNodes .groupPart df.next df.keys
      ++ combineNode .groupCombine df.next df.keys.length (df.next + 1, 0))
    rw [gKeys_append, List.mem_append]
    exact Or.inr (List.mem_cons_self _ _)
  · intro k hk
    have hk₂ : k ∈ gKeys (df.dask ++ mapNodes .groupPart df.next df.keys)
        ++ gKeys (combineNode .groupCombine df.next df.keys.length (df.next + 1, 0)) := by
      rw [← gKeys_append]
      exact hk
    show k.1 < df.next + 2
    rcases List.mem_append.mp hk₂ with hl | hr
    · rw [gKeys_append, gKeys_mapNodes, List.mem_append] at hl
      rcases hl with hll | hlr
      · have h₂ := hlayer k hll
        omega
      · rw [mem_keysGo] at hlr
        omega
    · rcases List.mem_singleton.mp hr with rfl
      show df.next + 1 < df.next + 2
      omega
  · exact List.nodup_singleton _

theorem frameWF_locFrame {df : DFrame} (h : FrameWF df) {a b : Int} {df₂ : DFrame}
    (hloc : locFrame a b df = some df₂) : FrameWF df₂ := by
  obtain ⟨hwf, hkeys, hlayer, hnd⟩ := h
  rw [locFrame, Option.map_eq_some'] at hloc
  obtain ⟨ds, hds, hdf⟩ := hloc
  subst hdf
  have hsel : ∀ k ∈ ((locTouched ds a b).filter
      (fun i => decide (i < df.keys.length))).map (fun i => df.keys.getD i (0, 0)),
      k ∈ gKeys df.dask := by
    intro k hk
    rw [List.mem_map] at hk
    obtain ⟨i, hi, rfl⟩ := hk
    rw [List.mem_filter, decide_eq_true_eq] at hi
    exact hkeys _ (getD_mem_of_lt (0, 0) hi.2)
  refine ⟨depsOK_mapLayer hwf hkeys hlayer hsel _, ?_, ?_, ?_⟩
  · intro k hk
    show k ∈ gKeys (df.dask ++ locNodes a b df.next df.keys
      ((locTouched ds a b).filter (fun i => decide (i < df.keys.length))))
    rw [locNodes, gKeys_append, gKeys_mapNodesGo, List.mem_append, List.length_map]
    exact Or.inr hk
  · intro k hk
    have hk₂ : k ∈ gKeys df.dask ++ keysGo df.next 0 (((locTouched ds a b).filter
        (fun i => decide (i < df.keys.length))).map (fun i => df.keys.getD i (0, 0))).length := by
      rw [← gKeys_mapNodesGo, ← gKeys_append]
      exact hk
    show k.1 < df.next + 1
    rcases List.mem_append.mp hk₂ with hl | hr
    · exact Nat.lt_succ_of_lt (hlayer k hl)
    · rw [mem_keysGo] at hr
      omega
  · exact keysGo_nodup _ 0 _

theorem wfg_no_cycle {g : TaskGraph} (h : WFg g = true) (k : Key) :
    ¬ Relation.TransGen (Edge g) k k := fun hcyc =>
  absurd (transGen_edge_lt h hcyc) (lt_irrefl _)

/-- Claim C8: every task graph built from logical operations is a DAG:
ingestion and every graph-building operation produce or preserve the
well-formedness invariants; a well-formed graph has distinct node keys
(each node produces exactly one output, consumed by zero or more later
nodes) and admits no dependency cycle. -/
theorem task_graphs_are_acyclic :
    (∀ files, FrameWF (readCsv files))
      ∧ (∀ df fn, FrameWF df → FrameWF (mapOp fn df))
      ∧ (∀ df, FrameWF df → FrameWF (groupbySum df))
      ∧ (∀ df pfn cfn, FrameWF df → WFg (aggOp pfn cfn df).dask = true)
      ∧ (∀ df a b df₂, FrameWF df → locFrame a b df = some df₂ → FrameWF df₂)
      ∧ (∀ df col, FrameWF (setIndex col df))
      ∧ (∀ g : TaskGraph, WFg g = true → (gKeys g).Nodup)
      ∧ (∀ g : TaskGraph, WFg g = true → ∀ k, ¬ Relation.TransGen (Edge g) k k) :=
  ⟨frameWF_readCsv,
    fun _ fn h => frameWF_mapOp h fn,
    fun _ h => frameWF_groupbySum h,
    fun _ pfn cfn h => wfg_aggOp h pfn cfn,
    fun _ _ _ _ h hl => frameWF_locFrame h hl,
    fun df col => frameWF_setIndex col df,
    fun _ h => (depsOK_nodup h).1,
    fun _ h k => wfg_no_cycle h k⟩

/-- Claim C5: in every completed execution of a task graph — the
sequential policy or any completion order a parallel policy may produce —
every dependency of a node is executed, and completes, strictly before the
node itself starts, so no node runs before its inputs are materialized. -/
theorem no_node_runs_before_deps {g : TaskGraph} {s : List Key} {env : Env}
    {k d : Key} {t : Task} (h : run g s = some env) (hkt : alookup k g = some t)
    (hd : d ∈ t.deps) (hks : k ∈ s) : d ∈ s ∧ posIn d s < posIn k s :=
  run_dep_order h hkt hd hks

/-- Witness for C5 on a concrete sum graph under its sequential schedule:
the combining node runs strictly after the per-partition sum it consumes. -/
theorem no_node_runs_before_deps_witness :
    (1, 0) ∈ gKeys graphW
      ∧ posIn (1, 0) (gKeys graphW) < posIn (2, 0) (gKeys graphW) :=
  no_node_runs_before_deps (t := ⟨.sumCombine, [(1, 0)]⟩)
    (by decide : run graphW (gKeys graphW) = some envW)
    (by decide) (by decide) (by decide)

/-- Claim C6: executing the same task graph twice with the same inputs
yields identical outputs for every executed node, regardless of the
execution order chosen among independent nodes. -/
theorem graph_execution_deterministic {g : TaskGraph} {s₁ s₂ : List Key}
    {e₁ e₂ : Env} {k : Key} (hwf : WFg g = true)
    (h₁ : run g s₁ = some e₁) (h₂ : run g s₂ = some e₂)
    (hk₁ : k ∈ s₁) (hk₂ : k ∈ s₂) : alookup k e₁ = alookup k e₂ :=
  run_det_aux hwf h₁ h₂ (posIn k (g.map Prod.fst) + 1) k (Nat.lt_succ_self _) hk₁ hk₂

/-- Witness for C6: a sequential and a reordered (parallel-style) schedule
of the same two-shard sum graph produce the same final aggregate. -/
theorem graph_execution_deterministic_witness :
    alookup (2, 0) envW₂ = alookup (2, 0) envW₃ :=
  graph_execution_deterministic (g := graphW₂)
    (by decide)
    (by decide : run graphW₂ (gKeys graphW₂) = some envW₂)
    (by decide : run graphW₂ [(0, 1), (0, 0), (1, 1), (1, 0), (2, 0)] = some envW₃)
    (by decide) (by decide)

theorem addToGroup_addToGroup_same (k x y : Int) (M : List Row) :
    addToGroup k y (addToGroup k x M) = addToGroup k (x + y) M := by
  induction M with
  | nil => simp [addToGroup, lt_irrefl]
  | cons m rest ih =>
    by_cases h₁ : k < m.key
    · simp [addToGroup, h₁, lt_irrefl]
    · by_cases h₂ : k = m.key
      · simp [addToGroup, h₁, h₂, lt_irrefl, add_assoc]
      · simp [addToGroup, h₁, h₂, ih]

theorem addToGroup_comm_lt {k₁ k₂ : Int} (h : k₁ < k₂) (v₁ v₂ : Int) (M : List Row) :
    addToGroup k₁ v₁ (addToGroup k₂ v₂ M) = addToGroup k₂ v₂ (addToGroup k₁ v₁ M) := by
  have hnlt : ¬k₂ < k₁ := lt_asymm h
  have hne : k₂ ≠ k₁ := (ne_of_lt h).symm
  induction M with
  | nil => simp [addToGroup, h, hnlt, hne]
  | cons m rest ih =>
    by_cases h₂ : k₂ < m.key
    · have h₁ : k₁ < m.key := lt_trans h h₂
      simp [addToGroup, h, h₁, h₂, hnlt, hne]
    · by_cases h₂e : k₂ = m.key
      · have h₁ : k₁ < m.key := h₂e ▸ h
        have hmlt : ¬m.key < k₁ := lt_asymm h₁
        have hmne : m.key ≠ k₁ := ne_of_gt h₁
        simp [addToGroup, h, h₁, h₂, h₂e, hnlt, hne, hmlt, hmne, lt_irrefl]
      · by_cases h₁ : k₁ < m.key
        · simp [addToGroup, h, h₁, h₂, h₂e, hnlt, hne]
        · by_cases h₁e : k₁ = m.key
          · simp [addToGroup, h₁, h₁e, h₂, h₂e, hnlt, hne]
          · simp [addToGroup, h₁, h₁e, h₂, h₂e, ih]

theorem addToGroup_comm (k₁ v₁ k₂ v₂ : Int) (M : List Row) :
    addToGroup k₁ v₁ (addToGroup k₂ v₂ M) = addToGroup k₂ v₂ (addToGroup k₁ v₁ M) := by
  rcases lt_trichotomy k₁ k₂ with h | h | h
  · exact addToGroup_comm_lt h v₁ v₂ M
  · subst h
    rw [addToGroup_addToGroup_same, addToGroup_addToGroup_same, add_comm]
  · exact (addToGroup_comm_lt h v₂ v₁ M).symm

theorem mergeGroups_addToGroup (k v : Int) (G acc : List Row) :
    mergeGroups (addToGroup k v G) acc = addToGroup k v (mergeGroups G acc) := by
  induction G with
  | nil => rfl
  | cons m rest ih =>
    by_cases h₁ : k < m.key
    · simp [addToGroup, mergeGroups, h₁]
    · by_cases h₂ : k = m.key
      · subst h₂
        simp only [addToGroup, if_neg h₁, if_pos rfl]
        show addToGroup m.key (m.amount + v) (mergeGroups rest acc)
          = addToGroup m.key v (addToGroup m.key m.amount (mergeGroups rest acc))
        rw [addToGroup_addToGroup_same]
      · simp only [addToGroup, if_neg h₁, if_neg h₂]
        show addToGroup m.key m.amount (mergeGroups (addToGroup k v rest) acc)
          = addToGroup k v (addToGroup m.key m.amount (mergeGroups rest acc))
        rw [ih, addToGroup_comm]

theorem mergeGroups_groupSum (a acc : List Row) :
    mergeGroups (groupSum a) acc
      = a.foldr (fun r acc => addToGroup r.key r.amount acc) acc := by
  induction a with
  | nil => rfl
  | cons r rest ih =>
    show mergeGroups (addToGroup r.key r.amount (groupSum rest)) acc = _
    rw [mergeGroups_addToGroup, ih]
    rfl

theorem groupSum_append (a b : List Row) :
    groupSum (a ++ b)
      = a.foldr (fun r acc => addToGroup r.key r.amount acc) (groupSum b) := by
  simp [groupSum, List.foldr_append]

theorem foldr_mergeGroups_flatten (ps : List (List Row)) :
    (ps.map groupSum).foldr mergeGroups [] = groupSum ps.flatten := by
  induction ps with
  | nil => rfl
  | cons p rest ih =>
    simp only [List.map_cons, List.foldr_cons, List.flatten_cons]
    rw [ih, mergeGroups_groupSum, groupSum_append]

theorem flatten_map_pFilterPos (ls : List (List Row)) :
    (ls.map pFilterPos).flatten = pFilterPos ls.flatten := by
  induction ls with
  | nil => rfl
  | cons l rest ih => simp [pFilterPos, List.filter_append, ih]

theorem flatten_map_pAddConst (c : Int) (ls : List (List Row)) :
    (ls.map (pAddConst c)).flatten = pAddConst c ls.flatten := by
  induction ls with
  | nil => rfl
  | cons l rest ih => simp [pAddConst, ih]

theorem sumAmounts_flatten (ps : List (List Row)) :
    (ps.map sumAmounts).sum = sumAmounts ps.flatten := by
  induction ps with
  | nil => rfl
  | cons p rest ih => simp [sumAmounts, ih]

theorem length_flatten_int (ps : List (List Row)) :
    (ps.map (fun rows => (rows.length : Int))).sum = (ps.flatten.length : Int) := by
  induction ps with
  | nil => rfl
  | cons p rest ih =>
    simp only [List.map_cons, List.sum_cons, List.flatten_cons, List.length_append, ih]
    push_cast
    ring

theorem partsF_flatten (files : List (List Row)) (e : FExpr) :
    (partsF files e).flatten = pandasF files.flatten e := by
  induction e with
  | src => rfl
  | filterPos e ih =>
    show ((partsF files e).map pFilterPos).flatten = pFilterPos (pandasF files.flatten e)
    rw [flatten_map_pFilterPos, ih]
  | addConst c e ih =>
    show ((partsF files e).map (pAddConst c)).flatten = pAddConst c (pandasF files.flatten e)
    rw [flatten_map_pAddConst, ih]
  | groupbySum e ih =>
    show [groupSum (partsF files e).flatten].flatten = groupSum (pandasF files.flatten e)
    simp [ih]

theorem getD_map_of_lt {α β : Type} (f : α → β) {l : List α} {j : Nat}
    (hj : j < l.length) (d : α) (d₂ : β) : (l.map f).getD j d₂ = f (l.getD j d) := by
  induction l generalizing j with
  | nil => cases hj
  | cons a rest ih =>
    cases j with
    | zero => rfl
    | succ j =>
      simp only [List.map_cons, List.getD_cons_succ]
      exact ih (Nat.lt_of_succ_lt_succ hj)

theorem keysGo_getD {layer i₀ n j : Nat} (d : Key) (hj : j < n) :
    (keysGo layer i₀ n).getD j d = (layer, i₀ + j) := by
  induction n generalizing i₀ j with
  | zero => cases hj
  | succ n ih =>
    cases j with
    | zero => simp [keysGo]
    | succ j =>
      have hs : i₀ + 1 + j = i₀ + (j + 1) := by omega
      rw [keysGo, List.getD_cons_succ, ih (Nat.lt_of_succ_lt_succ hj), hs]

theorem map_eq_of_getD {β : Type} (F : Key → β) (dflt : β) :
    ∀ (ks : List Key) (ps : List β), ks.length = ps.length →
      (∀ j, j < ks.length → F (ks.getD j (0, 0)) = ps.getD j dflt) →
      ks.map F = ps := by
  intro ks
  induction ks with
  | nil =>
    intro ps hlen _
    cases ps with
    | nil => rfl
    | cons p rest => cases hlen
  | cons k rest ih =>
    intro ps hlen hpt
    cases ps with
    | nil => cases hlen
    | cons p ps₂ =>
      have h0 : F k = p := hpt 0 (Nat.succ_pos _)
      have hrest : rest.map F = ps₂ := by
        refine ih ps₂ (Nat.succ_injective hlen) ?_
        intro j hj
        exact hpt (j + 1) (Nat.succ_lt_succ hj)
      simp [h0, hrest]

theorem mapOpt_asScalar_map (xs : List Int) :
    mapOpt asScalar (xs.map Value.scalar) = some xs := by
  induction xs with
  | nil => rfl
  | cons x rest ih => simp [mapOpt, asScalar, ih]

theorem mapOpt_asPair_map (xs : List (Int × Int)) :
    mapOpt asPair (xs.map (fun p => Value.pair p.1 p.2)) = some xs := by
  induction xs with
  | nil => rfl
  | cons x rest ih => simp [mapOpt, asPair, ih]

theorem mapOpt_asTable_map (ts : List (List Row)) :
    mapOpt asTable (ts.map Value.table) = some ts := by
  induction ts with
  | nil => rfl
  | cons t rest ih => simp [mapOpt, asTable, ih]

theorem runSched_sched_append (g : TaskGraph) (s₁ s₂ : List Key) (env : Env) :
    runSched g (s₁ ++ s₂) env
      = (runSched g s₁ env).bind (fun env₁ => runSched g s₂ env₁) := by
  induction s₁ generalizing env with
  | nil => rfl
  | cons a rest ih =>
    cases hst : runStep g env a with
    | none => simp [runSched, hst]
    | some env₁ => simp [runSched, hst, ih]

theorem runSched_graph_append {g h : TaskGraph} {s : List Key} {env : Env}
    (hs : ∀ k ∈ s, (alookup k g).isSome) :
    runSched (g ++ h) s env = runSched g s env := by
  induction s generalizing env with
  | nil => rfl
  | cons a rest ih =>
    have ha : alookup a (g ++ h) = alookup a g := by
      obtain ⟨t, ht⟩ := Option.isSome_iff_exists.mp (hs a (List.mem_cons_self a rest))
      rw [ht, alookup_append_some ht]
    have hstep : runStep (g ++ h) env a = runStep g env a := by
      unfold runStep
      rw [ha]
    simp only [runSched, hstep]
    cases hst : runStep g env a with
    | none => rfl
    | some env₁ => exact ih (fun k hk => hs k (List.mem_cons_of_mem a hk))

theorem alookup_mapNodesGo {fn : Func} {layer i₀ : Nat} {ks : List Key} {j : Nat}
    (hj : j < ks.length) :
    alookup (layer, i₀ + j) (mapNodesGo fn layer i₀ ks)
      = some ⟨fn, [ks.getD j (0, 0)]⟩ := by
  induction ks generalizing i₀ j with
  | nil => cases hj
  | cons k rest ih =>
    cases j with
    | zero => simp [mapNodesGo, alookup]
    | succ j =>
      have hne : (layer, i₀) ≠ (layer, i₀ + (j + 1)) := by
        simp only [ne_eq, Prod.mk.injEq]
        omega
      have hs : i₀ + (j + 1) = i₀ + 1 + j := by omega
      simp only [mapNodesGo, alookup, if_neg hne, List.getD_cons_succ]
      rw [hs]
      exact ih (Nat.lt_of_succ_lt_succ hj)

theorem alookup_sourceGo {i₀ : Nat} {parts : List (List Row)} {j : Nat}
    (hj : j < parts.length) :
    alookup (0, i₀ + j) (sourceGo i₀ parts)
      = some ⟨.source (parts.getD j []), []⟩ := by
  induction parts generalizing i₀ j with
  | nil => cases hj
  | cons p rest ih =>
    cases j with
    | zero => simp [sourceGo, alookup]
    | succ j =>
      have hne : ((0 : Nat), i₀) ≠ ((0 : Nat), i₀ + (j + 1)) := by
        simp only [ne_eq, Prod.mk.injEq]
        omega
      have hs : i₀ + (j + 1) = i₀ + 1 + j := by omega
      simp only [sourceGo, alookup, if_neg hne, List.getD_cons_succ]
      rw [hs]
      exact ih (Nat.lt_of_succ_lt_succ hj)

theorem mapOpt_keysGo_values {β : Type} (dflt : β) {f : Key → Option β}
    {layer : Nat} : ∀ {vs : List β} {i₀ : Nat},
    (∀ j, j < vs.length → f (layer, i₀ + j) = some (vs.getD j dflt)) →
    mapOpt f (keysGo layer i₀ vs.length) = some vs := by
  intro vs
  induction vs with
  | nil => intro i₀ _; rfl
  | cons v rest ih =>
    intro i₀ h
    have h0 : f (layer, i₀) = some v := by
      have := h 0 (Nat.succ_pos _)
      simpa using this
    have hrest : mapOpt f (keysGo layer (i₀ + 1) rest.length) = some rest := by
      refine ih ?_
      intro j hj
      have hs : i₀ + 1 + j = i₀ + (j + 1) := by omega
      rw [hs]
      exact h (j + 1) (Nat.succ_lt_succ hj)
    show mapOpt f ((layer, i₀) :: keysGo layer (i₀ + 1) rest.length) = some (v :: rest)
    simp [mapOpt, h0, hrest]

theorem keysGo_length (layer i n : Nat) : (keysGo layer i n).length = n := by
  induction n generalizing i with
  | zero => rfl
  | succ n ih => simp [keysGo, ih]

theorem runSched_mapLayer {G : TaskGraph} {fn : Func} {layer : Nat}
    {u : List Row → Value} (happly : ∀ rows, fn.apply [.table rows] = some (u rows)) :
    ∀ (ks : List Key) (ps : List (List Row)) (i₀ : Nat) (env : Env),
      ks.length = ps.length →
      (∀ j, j < ks.length →
        alookup (layer, i₀ + j) G = some ⟨fn, [ks.getD j (0, 0)]⟩) →
      (∀ j, j < ks.length →
        alookup (ks.getD j (0, 0)) env = some (.table (ps.getD j []))) →
      (∀ j, alookup (layer, i₀ + j) env = none) →
      (∀ j, j < ks.length → (ks.getD j (0, 0)).1 ≠ layer) →
      ∃ env₂, runSched G (keysGo layer i₀ ks.length) env = some env₂
        ∧ (∀ k v, alookup k env = some v → alookup k env₂ = some v)
        ∧ (∀ j, j < ks.length →
            alookup (layer, i₀ + j) env₂ = some (u (ps.getD j [])))
        ∧ (∀ k : Key, k.1 ≠ layer → alookup k env₂ = alookup k env) := by
  intro ks
  induction ks with
  | nil =>
    intro ps i₀ env _ _ _ _ _
    exact ⟨env, rfl, fun k v hv => hv,
      fun j hj => absurd hj (Nat.not_lt_zero j), fun k _ => rfl⟩
  | cons k₀ rest ih =>
    intro ps i₀ env hlen hG henv hfresh hdep
    cases ps with
    | nil => cases hlen
    | cons p ps₂ =>
      have hG0 : alookup (layer, i₀) G = some ⟨fn, [k₀]⟩ := by
        have h₀ := hG 0 (Nat.succ_pos _)
        simpa using h₀
      have henv0 : alookup k₀ env = some (.table p) := by
        have h₀ := henv 0 (Nat.succ_pos _)
        simpa using h₀
      have hfresh0 : alookup (layer, i₀) env = none := by
        have h₀ := hfresh 0
        simpa using h₀
      have hstep : runStep G env (layer, i₀) = some (((layer, i₀), u p) :: env) := by
        unfold runStep
        rw [hG0, Option.some_bind, hfresh0]
        simp only [Option.isSome_none, Bool.false_eq_true, if_false]
        show (mapOpt (fun d => alookup d env) [k₀]).bind _ = _
        simp [mapOpt, henv0, happly p]
      have hdeptail : ∀ j, j < rest.length → (rest.getD j (0, 0)).1 ≠ layer := by
        intro j hj
        have h₀ := hdep (j + 1) (Nat.succ_lt_succ hj)
        simpa using h₀
      obtain ⟨env₂, hrun₂, hpres₂, hval₂, hother₂⟩ :=
        ih ps₂ (i₀ + 1) (((layer, i₀), u p) :: env)
          (Nat.succ_injective hlen)
          (fun j hj => by
            have hs : i₀ + 1 + j = i₀ + (j + 1) := by omega
            rw [hs]
            have h₀ := hG (j + 1) (Nat.succ_lt_succ hj)
            simpa using h₀)
          (fun j hj => by
            have hne : (layer, i₀) ≠ rest.getD j (0, 0) := by
              intro he
              exact hdeptail j hj (by rw [← he])
            simp only [alookup, if_neg hne]
            have h₀ := henv (j + 1) (Nat.succ_lt_succ hj)
            simpa using h₀)
          (fun j => by
            have hne : (layer, i₀) ≠ (layer, i₀ + 1 + j) := by
              simp only [ne_eq, Prod.mk.injEq]
              omega
            simp only [alookup, if_neg hne]
            have hs : i₀ + 1 + j = i₀ + (j + 1) := by omega
            rw [hs]
            exact hfresh (j + 1))
          hdeptail
      refine ⟨env₂, ?_, ?_, ?_, ?_⟩
      · show runSched G ((layer, i₀) :: keysGo layer (i₀ + 1) rest.length) env = some env₂
        simp only [runSched, hstep]
        exact hrun₂
      · intro k v hv
        refine hpres₂ k v ?_
        have hne : (layer, i₀) ≠ k := by
          intro he
          rw [← he, hfresh0] at hv
          cases hv
        simp only [alookup, if_neg hne]
        exact hv
      · intro j hj
        cases j with
        | zero =>
          have h₀ : alookup (layer, i₀) (((layer, i₀), u p) :: env) = some (u p) := by
            simp [alookup]
          have h₁ := hpres₂ _ _ h₀
          simpa using h₁
        | succ j =>
          have hs : i₀ + (j + 1) = i₀ + 1 + j := by omega
          rw [hs]
          have h₀ := hval₂ j (Nat.lt_of_succ_lt_succ hj)
          simpa using h₀
      · intro k hk
        rw [hother₂ k hk]
        have hne : (layer, i₀) ≠ k := by
          intro he
          rw [← he] at hk
          exact hk rfl
        simp only [alookup, if_neg hne]

theorem runSched_sourceLayer {G : TaskGraph} :
    ∀ (parts : List (List Row)) (i₀ : Nat) (env : Env),
      (∀ j, j < parts.length →
        alookup (0, i₀ + j) G = some ⟨.source (parts.getD j []), []⟩) →
      (∀ j, alookup (0, i₀ + j) env = none) →
      ∃ env₂, runSched G (keysGo 0 i₀ parts.length) env = some env₂
        ∧ (∀ k v, alookup k env = some v → alookup k env₂ = some v)
        ∧ (∀ j, j < parts.length →
            alookup (0, i₀ + j) env₂ = some (.table (parts.getD j [])))
        ∧ (∀ k : Key, k.1 ≠ 0 → alookup k env₂ = alookup k env) := by
  intro parts
  induction parts with
  | nil =>
    intro i₀ env _ _
    exact ⟨env, rfl, fun k v hv => hv,
      fun j hj => absurd hj (Nat.not_lt_zero j), fun k _ => rfl⟩
  | cons p rest ih =>
    intro i₀ env hG hfresh
    have hG0 : alookup (0, i₀) G = some ⟨.source p, []⟩ := by
      have h₀ := hG 0 (Nat.succ_pos _)
      simpa using h₀
    have hfresh0 : alookup (0, i₀) env = none := by
      have h₀ := hfresh 0
      simpa using h₀
    have hstep : runStep G env (0, i₀) = some (((0, i₀), Value.table p) :: env) := by
      unfold runStep
      rw [hG0, Option.some_bind, hfresh0]
      simp only [Option.isSome_none, Bool.false_eq_true, if_false]
      show (mapOpt (fun d => alookup d env) []).bind _ = _
      simp [mapOpt, Func.apply]
    obtain ⟨env₂, hrun₂, hpres₂, hval₂, hother₂⟩ :=
      ih (i₀ + 1) (((0, i₀), Value.table p) :: env)
        (fun j hj => by
          have hs : i₀ + 1 + j = i₀ + (j + 1) := by omega
          rw [hs]
          have h₀ := hG (j + 1) (Nat.succ_lt_succ hj)
          simpa using h₀)
        (fun j => by
          have hne : ((0 : Nat), i₀) ≠ ((0 : Nat), i₀ + 1 + j) := by
            simp only [ne_eq, Prod.mk.injEq]
            omega
          simp only [alookup, if_neg hne]
          have hs : i₀ + 1 + j = i₀ + (j + 1) := by omega
          rw [hs]
          exact hfresh (j + 1))
    refine ⟨env₂, ?_, ?_, ?_, ?_⟩
    · show runSched G ((0, i₀) :: keysGo 0 (i₀ + 1) rest.length) env = some env₂
      simp only [runSched, hstep]
      exact hrun₂
    · intro k v hv
      refine hpres₂ k v ?_
      have hne : ((0 : Nat), i₀) ≠ k := by
        intro he
        rw [← he, hfresh0] at hv
        cases hv
      simp only [alookup, if_neg hne]
      exact hv
    · intro j hj
      cases j with
      | zero =>
        have h₀ : alookup (0, i₀) (((0, i₀), Value.table p) :: env)
            = some (Value.table p) := by
          simp [alookup]
        have h₁ := hpres₂ _ _ h₀
        simpa using h₁
      | succ j =>
        have hs : i₀ + (j + 1) = i₀ + 1 + j := by omega
        rw [hs]
        have h₀ := hval₂ j (Nat.lt_of_succ_lt_succ hj)
        simpa using h₀
    · intro k hk
      rw [hother₂ k hk]
      have hne : ((0 : Nat), i₀) ≠ k := by
        intro he
        rw [← he] at hk
        exact hk rfl
      simp only [alookup, if_neg hne]

theorem runSched_combine {G : TaskGraph} {cfn : Func} {layer n : Nat} {key : Key}
    {vs : List Value} {w : Value} {env : Env}
    (hG : alookup key G = some ⟨cfn, partKeys layer n⟩)
    (henv : alookup key env = none)
    (hvs : mapOpt (fun d => alookup d env) (partKeys layer n) = some vs)
    (happ : cfn.apply vs = some w) :
    runSched G [key] env = some ((key, w) :: env) := by
  have hstep : runStep G env key = some ((key, w) :: env) := by
    unfold runStep
    rw [hG, Option.some_bind, henv]
    simp only [Option.isSome_none, Bool.false_eq_true, if_false]
    rw [hvs, Option.some_bind, happ]
    rfl
  simp [runSched, hstep]

theorem env_layer_none {df : DFrame} (hWF : FrameWF df) {env : Env}
    (hrun : seqRun df.dask = some env) {k : Key} (hk : df.next ≤ k.1) :
    alookup k env = none := by
  obtain ⟨hwf, hkeys, hlayer, hnd⟩ := hWF
  cases halo : alookup k env with
  | none => rfl
  | some v =>
    have hsome : (alookup k env).isSome := by simp [halo]
    rcases (runSched_dom (h := hrun) k).mp hsome with hbase | hs
    · simp [alookup] at hbase
    · have := hlayer k hs
      omega

theorem alookup_dask_none {df : DFrame} (hWF : FrameWF df) {k : Key}
    (hk : df.next ≤ k.1) : alookup k df.dask = none := by
  obtain ⟨_, _, hlayer, _⟩ := hWF
  rw [alookup_none_iff]
  intro hmem
  have := hlayer k hmem
  omega

theorem seqRun_extend {df : DFrame} {env : Env}
    (hrun : seqRun df.dask = some env) (ext : TaskGraph) (s₂ : List Key)
    (hkeys₂ : gKeys (df.dask ++ ext) = gKeys df.dask ++ s₂) :
    seqRun (df.dask ++ ext) = runSched (df.dask ++ ext) s₂ env := by
  show runSched (df.dask ++ ext) (gKeys (df.dask ++ ext)) [] = _
  rw [hkeys₂, runSched_sched_append]
  have h₁ : runSched (df.dask ++ ext) (gKeys df.dask) [] = some env := by
    have hs : ∀ k ∈ gKeys df.dask, (alookup k df.dask).isSome :=
      fun k hk => alookup_isSome_iff.mpr hk
    rw [runSched_graph_append hs]
    exact hrun
  rw [h₁]
  rfl

theorem buildF_step_mapOp {df : DFrame} (hWF : FrameWF df) {env : Env}
    {ps : List (List Row)} (hrun : seqRun df.dask = some env)
    (hlen : df.keys.length = ps.length)
    (hpt : ∀ j, j < df.keys.length →
      alookup (df.keys.getD j (0, 0)) env = some (.table (ps.getD j [])))
    {fn : Func} {uu : List Row → List Row}
    (happly : ∀ rows, fn.apply [.table rows] = some (.table (uu rows))) :
    ∃ env₂, seqRun (mapOp fn df).dask = some env₂
      ∧ (mapOp fn df).keys.length = (ps.map uu).length
      ∧ (∀ j, j < (mapOp fn df).keys.length →
          alookup ((mapOp fn df).keys.getD j (0, 0)) env₂
            = some (.table ((ps.map uu).getD j []))) := by
  have hG : ∀ j, j < df.keys.length →
      alookup ((df.next : Nat), 0 + j) (df.dask ++ mapNodes fn df.next df.keys)
        = some ⟨fn, [df.keys.getD j (0, 0)]⟩ := by
    intro j hj
    rw [alookup_append_none (alookup_dask_none hWF (le_refl df.next))]
    exact alookup_mapNodesGo hj
  have hfresh : ∀ j, alookup ((df.next : Nat), 0 + j) env = none := fun j =>
    env_layer_none hWF hrun (le_refl df.next)
  have hdep : ∀ j, j < df.keys.length → (df.keys.getD j (0, 0)).1 ≠ df.next := by
    intro j hj
    obtain ⟨hwf, hkeys, hlayer, hnd⟩ := hWF
    have hm := hkeys _ (getD_mem_of_lt (0, 0) hj)
    have := hlayer _ hm
    omega
  obtain ⟨env₂, hrun₂, hpres₂, hval₂, hother₂⟩ :=
    runSched_mapLayer happly df.keys ps 0 env hlen hG hpt hfresh hdep
  refine ⟨env₂, ?_, ?_, ?_⟩
  · rw [show (mapOp fn df).dask = df.dask ++ mapNodes fn df.next df.keys from rfl,
      seqRun_extend hrun (mapNodes fn df.next df.keys)
        (keysGo df.next 0 df.keys.length)
        (by rw [gKeys_append, gKeys_mapNodes])]
    exact hrun₂
  · show (partKeys df.next df.keys.length).length = (ps.map uu).length
    rw [partKeys, keysGo_length, List.length_map, hlen]
  · intro j hj
    have hjlen : j < df.keys.length := by
      have hl : (mapOp fn df).keys.length = df.keys.length :=
        keysGo_length df.next 0 df.keys.length
      omega
    show alookup ((partKeys df.next df.keys.length).getD j (0, 0)) env₂
      = some (.table ((ps.map uu).getD j []))
    rw [partKeys, keysGo_getD (0, 0) hjlen, getD_map_of_lt uu (hlen ▸ hjlen) []]
    exact hval₂ j hjlen

theorem buildF_step_layered {df : DFrame} (hWF : FrameWF df) {env : Env}
    {ps : List (List Row)} (hrun : seqRun df.dask = some env)
    (hlen : df.keys.length = ps.length)
    (hpt : ∀ j, j < df.keys.length →
      alookup (df.keys.getD j (0, 0)) env = some (.table (ps.getD j [])))
    {pfn cfn : Func} {u : List Row → Value} {w : Value}
    (happly : ∀ rows, pfn.apply [.table rows] = some (u rows))
    (hcomb : cfn.apply (ps.map u) = some w) :
    ∃ env₃, seqRun (df.dask ++ mapNodes pfn df.next df.keys
        ++ combineNode cfn df.next df.keys.length (df.next + 1, 0)) = some env₃
      ∧ alookup (df.next + 1, 0) env₃ = some w := by
  have hG : ∀ j, j < df.keys.length →
      alookup ((df.next : Nat), 0 + j) (df.dask ++ (mapNodes pfn df.next df.keys
          ++ combineNode cfn df.next df.keys.length (df.next + 1, 0)))
        = some ⟨pfn, [df.keys.getD j (0, 0)]⟩ := by
    intro j hj
    rw [alookup_append_none (alookup_dask_none hWF (le_refl df.next))]
    exact alookup_append_some (alookup_mapNodesGo hj)
  have hfresh : ∀ j, alookup ((df.next : Nat), 0 + j) env = none := fun j =>
    env_layer_none hWF hrun (le_refl df.next)
  have hdep : ∀ j, j < df.keys.length → (df.keys.getD j (0, 0)).1 ≠ df.next := by
    intro j hj
    obtain ⟨hwf, hkeys, hlayer, hnd⟩ := hWF
    have hm := hkeys _ (getD_mem_of_lt (0, 0) hj)
    have := hlayer _ hm
    omega
  obtain ⟨env₂, hrun₂, hpres₂, hval₂, hother₂⟩ :=
    runSched_mapLayer happly df.keys ps 0 env hlen hG hpt hfresh hdep
  have hGc : alookup (df.next + 1, 0) (df.dask ++ (mapNodes pfn df.next df.keys
      ++ combineNode cfn df.next df.keys.length (df.next + 1, 0)))
      = some ⟨cfn, partKeys df.next df.keys.length⟩ := by
    rw [alookup_append_none (alookup_dask_none hWF (by omega)),
      alookup_append_none ?_]
    · simp [combineNode, alookup]
    · rw [alookup_none_iff]
      intro hmem
      have hmem₂ : ((df.next + 1 : Nat), (0 : Nat)) ∈ keysGo df.next 0 df.keys.length := by
        rw [← gKeys_mapNodes pfn df.next df.keys]
        exact hmem
      rw [mem_keysGo] at hmem₂
      omega
  have henvc : alookup (df.next + 1, 0) env₂ = none := by
    rw [hother₂ (df.next + 1, 0) (by omega)]
    exact env_layer_none hWF hrun (by omega)
  have hvs : mapOpt (fun d => alookup d env₂) (partKeys df.next df.keys.length)
      = some (ps.map u) := by
    have hlen₂ : (ps.map u).length = df.keys.length := by
      rw [List.length_map, hlen]
    rw [show partKeys df.next df.keys.length
        = keysGo df.next 0 (ps.map u).length from by rw [partKeys, hlen₂]]
    refine mapOpt_keysGo_values (u []) ?_
    intro j hj
    have hjk : j < df.keys.length := by omega
    rw [hval₂ j hjk, getD_map_of_lt u (hlen ▸ hjk) []]
  refine ⟨((df.next + 1, 0), w) :: env₂, ?_, by simp [alookup]⟩
  rw [show df.dask ++ mapNodes pfn df.next df.keys
      ++ combineNode cfn df.next df.keys.length (df.next + 1, 0)
      = df.dask ++ (mapNodes pfn df.next df.keys
        ++ combineNode cfn df.next df.keys.length (df.next + 1, 0))
      from List.append_assoc _ _ _]
  rw [seqRun_extend hrun _
    (keysGo df.next 0 df.keys.length ++ [(df.next + 1, 0)])
    (by rw [gKeys_append, gKeys_append, gKeys_mapNodes]; rfl)]
  rw [runSched_sched_append, hrun₂, Option.some_bind]
  exact runSched_combine hGc henvc hvs hcomb

theorem frameWF_buildF (files : List (List Row)) (e : FExpr) :
    FrameWF (buildF files e) := by
  induction e with
  | src => exact frameWF_readCsv files
  | filterPos e ih => exact frameWF_mapOp ih _
  | addConst c e ih => exact frameWF_mapOp ih _
  | groupbySum e ih => exact frameWF_groupbySum ih

theorem buildF_eval (files : List (List Row)) (e : FExpr) :
    ∃ env, seqRun (buildF files e).dask = some env
      ∧ (buildF files e).keys.length = (partsF files e).length
      ∧ ∀ j, j < (buildF files e).keys.length →
          alookup ((buildF files e).keys.getD j (0, 0)) env
            = some (.table ((partsF files e).getD j [])) := by
  induction e with
  | src =>
    obtain ⟨env₂, hrun, hpres, hval, hother⟩ :=
      runSched_sourceLayer (G := sourceGraph files) files 0 []
        (fun j hj => alookup_sourceGo hj) (fun j => rfl)
    refine ⟨env₂, ?_, ?_, ?_⟩
    · show runSched (sourceGraph files) (gKeys (sourceGo 0 files)) [] = some env₂
      rw [gKeys_sourceGo]
      exact hrun
    · show (partKeys 0 files.length).length = files.length
      exact keysGo_length 0 0 files.length
    · intro j hj
      have hjf : j < files.length := by
        have hl : (buildF files FExpr.src).keys.length = files.length :=
          keysGo_length 0 0 files.length
        omega
      show alookup ((partKeys 0 files.length).getD j (0, 0)) env₂
        = some (.table (files.getD j []))
      rw [partKeys, keysGo_getD (0, 0) hjf]
      exact hval j hjf
  | filterPos e ih =>
    obtain ⟨env, hrun, hlen, hpt⟩ := ih
    have hlen₂ : (buildF files e).keys.length = (partsF files e).length := hlen
    obtain ⟨env₂, h₁, h₂, h₃⟩ :=
      buildF_step_mapOp (frameWF_buildF files e) hrun hlen₂
        (fun j hj => hpt j hj)
        (show ∀ rows, Func.apply .filterPos [.table rows]
          = some (.table (pFilterPos rows)) from fun rows => rfl)
    exact ⟨env₂, h₁, h₂, h₃⟩
  | addConst c e ih =>
    obtain ⟨env, hrun, hlen, hpt⟩ := ih
    obtain ⟨env₂, h₁, h₂, h₃⟩ :=
      buildF_step_mapOp (frameWF_buildF files e) hrun hlen
        (fun j hj => hpt j hj)
        (show ∀ rows, Func.apply (.addConst c) [.table rows]
          = some (.table (pAddConst c rows)) from fun rows => rfl)
    exact ⟨env₂, h₁, h₂, h₃⟩
  | groupbySum e ih =>
    obtain ⟨env, hrun, hlen, hpt⟩ := ih
    have hcomb : Func.apply .groupCombine
        ((partsF files e).map (fun rows => Value.table (groupSum rows)))
        = some (.table (groupSum (partsF files e).flatten)) := by
      rw [show (partsF files e).map (fun rows => Value.table (groupSum rows))
          = ((partsF files e).map groupSum).map Value.table from by
        rw [List.map_map]; rfl]
      show (mapOpt asTable (((partsF files e).map groupSum).map Value.table)).map _ = _
      rw [mapOpt_asTable_map]
      simp only [Option.map_some']
      rw [foldr_mergeGroups_flatten]
    obtain ⟨env₃, h₁, h₂⟩ :=
      buildF_step_layered (frameWF_buildF files e) hrun hlen
        (fun j hj => hpt j hj)
        (show ∀ rows, Func.apply .groupPart [.table rows]
          = some (Value.table (groupSum rows)) from fun rows => rfl)
        hcomb
    refine ⟨env₃, h₁, rfl, ?_⟩
    intro j hj
    have hj1 : j < 1 := hj
    interval_cases j
    exact h₂

/-- Claim C7: a table ingested from CSV shards, a source providing no
ordering guarantee, has unknown divisions: its divisions attribute is
`none` rather than a sequence of boundary values. -/
theorem readCsv_divisions_unknown (files : List (List Row)) :
    (readCsv files).divisions = none := rfl

/-- Claim C9: materializing a lazily built dataframe expression with
compute returns exactly the result of applying the corresponding eager
pandas-style operations to the concatenation of all ingested partitions:
partitioned lazy evaluation refines single-table pandas semantics, for
frame expressions (selection, elementwise arithmetic, groupby-aggregate)
and for scalar aggregates (sum, mean). -/
theorem compute_refines_pandas (files : List (List Row)) :
    (∀ e : FExpr, computeFrame (buildF files e) = pandasF files.flatten e)
      ∧ (∀ s : SExpr, computeScalar (buildS files s)
          = some (pandasS files.flatten s)) := by
  have hframe : ∀ e : FExpr, computeFrame (buildF files e) = pandasF files.flatten e := by
    intro e
    obtain ⟨env, hrun, hlen, hpt⟩ := buildF_eval files e
    have h₁ : computeFrame (buildF files e)
        = ((buildF files e).keys.map (fun k => getTable (alookup k env))).flatten := by
      unfold computeFrame
      rw [hrun]
    rw [h₁, map_eq_of_getD (fun k => getTable (alookup k env)) []
      (buildF files e).keys (partsF files e) hlen ?_, partsF_flatten]
    intro j hj
    show getTable (alookup ((buildF files e).keys.getD j (0, 0)) env)
      = (partsF files e).getD j []
    rw [hpt j hj]
    rfl
  refine ⟨hframe, ?_⟩
  intro s
  cases s with
  | sumA e =>
    obtain ⟨env, hrun, hlen, hpt⟩ := buildF_eval files e
    have hcomb : Func.apply .sumCombine
        ((partsF files e).map (fun rows => Value.scalar (sumAmounts rows)))
        = some (.scalar (sumAmounts (partsF files e).flatten)) := by
      rw [show (partsF files e).map (fun rows => Value.scalar (sumAmounts rows))
          = ((partsF files e).map sumAmounts).map Value.scalar from by
        rw [List.map_map]; rfl]
      show (mapOpt asScalar _).map _ = _
      rw [mapOpt_asScalar_map]
      simp only [Option.map_some']
      rw [sumAmounts_flatten]
    obtain ⟨env₃, h₁, h₂⟩ :=
      buildF_step_layered (frameWF_buildF files e) hrun hlen
        (fun j hj => hpt j hj)
        (show ∀ rows, Func.apply .sumPart [.table rows]
          = some (Value.scalar (sumAmounts rows)) from fun rows => rfl)
        hcomb
    show computeScalar (sumAmount (buildF files e))
      = some (pSum (pandasF files.flatten e))
    unfold computeScalar
    rw [show (sumAmount (buildF files e)).dask
        = (buildF files e).dask
          ++ mapNodes .sumPart (buildF files e).next (buildF files e).keys
          ++ combineNode .sumCombine (buildF files e).next
            (buildF files e).keys.length ((buildF files e).next + 1, 0) from rfl]
    rw [h₁, Option.some_bind]
    rw [show (sumAmount (buildF files e)).key
        = ((buildF files e).next + 1, 0) from rfl]
    rw [h₂, Option.some_bind]
    show some (sumAmounts (partsF files e).flatten)
      = some (pSum (pandasF files.flatten e))
    rw [partsF_flatten]
    rfl
  | meanA e =>
    obtain ⟨env, hrun, hlen, hpt⟩ := buildF_eval files e
    have hcomb : Func.apply .meanCombine
        ((partsF files e).map (fun rows =>
          Value.pair (sumAmounts rows) (rows.length : Int)))
        = some (.scalar (sumAmounts (partsF files e).flatten
            / ((partsF files e).flatten.length : Int))) := by
      rw [show (partsF files e).map (fun rows =>
            Value.pair (sumAmounts rows) (rows.length : Int))
          = ((partsF files e).map (fun rows =>
              (sumAmounts rows, (rows.length : Int)))).map (fun p => Value.pair p.1 p.2)
          from by rw [List.map_map]; rfl]
      show (mapOpt asPair _).map _ = _
      rw [mapOpt_asPair_map]
      simp only [Option.map_some']
      rw [show ((partsF files e).map (fun rows =>
            (sumAmounts rows, (rows.length : Int)))).map Prod.fst
          = (partsF files e).map sumAmounts from by rw [List.map_map]; rfl]
      rw [show ((partsF files e).map (fun rows =>
            (sumAmounts rows, (rows.length : Int)))).map Prod.snd
          = (partsF files e).map (fun rows => (rows.length : Int)) from by
        rw [List.map_map]; rfl]
      rw [sumAmounts_flatten, length_flatten_int]
    obtain ⟨env₃, h₁, h₂⟩ :=
      buildF_step_layered (frameWF_buildF files e) hrun hlen
        (fun j hj => hpt j hj)
        (show ∀ rows, Func.apply .sumCountPart [.table rows]
          = some (Value.pair (sumAmounts rows) (rows.length : Int)) from
          fun rows => rfl)
        hcomb
    show computeScalar (meanAmount (buildF files e))
      = some (pMean (pandasF files.flatten e))
    unfold computeScalar
    rw [show (meanAmount (buildF files e)).dask
        = (buildF files e).dask
          ++ mapNodes .sumCountPart (buildF files e).next (buildF files e).keys
          ++ combineNode .meanCombine (buildF files e).next
            (buildF files e).keys.length ((buildF files e).next + 1, 0) from rfl]
    rw [h₁, Option.some_bind]
    rw [show (meanAmount (buildF files e)).key
        = ((buildF files e).next + 1, 0) from rfl]
    rw [h₂, Option.some_bind]
    show some (sumAmounts (partsF files e).flatten
        / ((partsF files e).flatten.length : Int))
      = some (pMean (pandasF files.flatten e))
    rw [partsF_flatten]
    rfl

/-- Claim C10 (amended): head computes eagerly — on any lazily built
expression it executes the graph at call time and returns the first rows
of the first partition as concrete data, with no compute call — and every
other dataframe operation of the public interface except set_index
(selection, elementwise arithmetic, groupby-aggregate, sum, mean, loc)
returns an unevaluated result whose task graph merely extends the input
graph.  head is not the unique eager operation: set_index also computes at
call time, as the counterexample below shows. -/
theorem head_is_eager_and_all_but_setIndex_lazy (files : List (List Row)) (n : Nat) :
    (∀ e : FExpr, headRows n (buildF files e) = ((partsF files e).getD 0 []).take n)
      ∧ (∀ df : DFrame, ∃ ext, (filterPositive df).dask = df.dask ++ ext)
      ∧ (∀ (c : Int) (df : DFrame), ∃ ext, (addConstant c df).dask = df.dask ++ ext)
      ∧ (∀ df : DFrame, ∃ ext, (groupbySum df).dask = df.dask ++ ext)
      ∧ (∀ df : DFrame, ∃ ext, (sumAmount df).dask = df.dask ++ ext)
      ∧ (∀ df : DFrame, ∃ ext, (meanAmount df).dask = df.dask ++ ext)
      ∧ (∀ a b df df₂, locFrame a b df = some df₂
          → ∃ ext, df₂.dask = df.dask ++ ext) := by
  refine ⟨?_, fun df => ⟨_, rfl⟩, fun c df => ⟨_, rfl⟩,
    fun df => ⟨_, List.append_assoc _ _ _⟩,
    fun df => ⟨_, List.append_assoc _ _ _⟩,
    fun df => ⟨_, List.append_assoc _ _ _⟩, ?_⟩
  · intro e
    obtain ⟨env, hrun, hlen, hpt⟩ := buildF_eval files e
    cases hke : (buildF files e).keys with
    | nil =>
      have hplen : (partsF files e).length = 0 := by
        rw [← hlen, hke]
        rfl
      have hpnil : partsF files e = [] := List.length_eq_zero.mp hplen
      unfold headRows
      rw [hke, hpnil]
      simp
    | cons k krest =>
      have h0 : 0 < (buildF files e).keys.length := by
        rw [hke]
        exact Nat.succ_pos _
      have hk0 : (buildF files e).keys.getD 0 (0, 0) = k := by
        rw [hke]
        rfl
      have hv := hpt 0 h0
      rw [hk0] at hv
      unfold headRows
      rw [hke]
      show (match seqRun (buildF files e).dask with
        | some env => (getTable (alookup k env)).take n
        | none => []) = ((partsF files e).getD 0 []).take n
      rw [hrun]
      show (getTable (alookup k env)).take n = ((partsF files e).getD 0 []).take n
      rw [hv]
      rfl
  · intro a b df df₂ hloc
    rw [locFrame, Option.map_eq_some'] at hloc
    obtain ⟨ds, hds, hdf⟩ := hloc
    refine ⟨locNodes a b df.next df.keys
      ((locTouched ds a b).filter (fun i => decide (i < df.keys.length))), ?_⟩
    rw [← hdf]

theorem pairwise_getD_lt {l : List Int} (hl : List.Pairwise (· < ·) l) {i j : Nat}
    (hij : i < j) (hj : j < l.length) : l.getD i 0 < l.getD j 0 := by
  have hi : i < l.length := lt_trans hij hj
  rw [List.getD_eq_getElem l 0 hi, List.getD_eq_getElem l 0 hj]
  have h := List.pairwise_iff_get.mp hl ⟨i, hi⟩ ⟨j, hj⟩ (Fin.mk_lt_mk.mpr hij)
  simpa using h

theorem getD_le_iff_lt_countP {l : List Int} (hl : List.Pairwise (· < ·) l)
    {x : Int} {j : Nat} (hj : j < l.length) :
    l.getD j 0 ≤ x ↔ j < l.countP (fun d => decide (d ≤ x)) := by
  induction l generalizing j with
  | nil => cases hj
  | cons d rest ih =>
    have hpw := List.pairwise_cons.mp hl
    cases j with
    | zero =>
      simp only [List.getD_cons_zero, List.countP_cons]
      constructor
      · intro hd
        simp [hd]
      · intro hc
        by_contra hd
        have hrest0 : rest.countP (fun e => decide (e ≤ x)) = 0 := by
          rw [List.countP_eq_zero]
          intro e he
          have := hpw.1 e he
          simp only [decide_eq_true_eq]
          omega
        rw [hrest0] at hc
        simp only [decide_eq_true_eq] at hc
        rw [if_neg hd] at hc
        omega
    | succ j =>
      simp only [List.getD_cons_succ, List.countP_cons]
      by_cases hd : d ≤ x
      · rw [ih hpw.2 (Nat.lt_of_succ_lt_succ hj)]
        simp only [decide_eq_true_eq]
        rw [if_pos hd]
        omega
      · have hrest0 : rest.countP (fun e => decide (e ≤ x)) = 0 := by
          rw [List.countP_eq_zero]
          intro e he
          have := hpw.1 e he
          simp only [decide_eq_true_eq]
          omega
        have hgt : x < rest.getD j 0 := by
          have hmem := getD_mem_of_lt (0 : Int) (Nat.lt_of_succ_lt_succ hj)
          have := hpw.1 _ hmem
          omega
        rw [hrest0]
        simp only [decide_eq_true_eq]
        rw [if_neg hd]
        omega

theorem getD_tail {l : List Int} {j : Nat} : l.tail.getD j 0 = l.getD (j + 1) 0 := by
  cases l with
  | nil => rfl
  | cons a rest => rfl

theorem getD_dropLast {l : List Int} {j : Nat} (hj : j < l.length - 1) :
    l.dropLast.getD j 0 = l.getD j 0 := by
  have hj₂ : j < l.dropLast.length := by
    rw [List.length_dropLast]
    exact hj
  have hj₃ : j < l.length := by
    have := List.length_dropLast l
    omega
  rw [List.getD_eq_getElem l.dropLast 0 hj₂, List.getD_eq_getElem l 0 hj₃]
  exact List.getElem_dropLast l j hj₂

theorem getLast?_getD : ∀ {l : List Int} {m : Int}, l.getLast? = some m →
    l.getD (l.length - 1) 0 = m := by
  intro l
  induction l with
  | nil => intro m h; cases h
  | cons a rest ih =>
    intro m h
    cases rest with
    | nil =>
      simp only [List.getLast?_singleton, Option.some_inj] at h
      simpa using h
    | cons b rest₂ =>
      rw [List.getLast?_cons_cons] at h
      have hlen : (a :: b :: rest₂).length - 1 = ((b :: rest₂).length - 1) + 1 := by
        simp
      rw [hlen, List.getD_cons_succ]
      exact ih h

theorem getD_le_getLast {ds : List Int} {dn : Int}
    (hpw : List.Pairwise (· < ·) ds) (hlast : ds.getLast? = some dn)
    {j : Nat} (hj : j < ds.length) : ds.getD j 0 ≤ dn := by
  have hdn := getLast?_getD hlast
  rcases Nat.lt_or_ge j (ds.length - 1) with hlt | hge
  · have := pairwise_getD_lt hpw hlt (by omega)
    omega
  · have hj₂ : j = ds.length - 1 := by omega
    rw [hj₂, hdn]

theorem inPart_cons {d₀ : Int} {t : List Int} {i : Nat} {k : Int} :
    inPart (d₀ :: t) (i + 1) k ↔ inPart t i k := by
  unfold inPart
  rw [List.getD_cons_succ, List.getD_cons_succ]
  have hiff : (i + 1 + 2 = (d₀ :: t).length) ↔ (i + 2 = t.length) := by
    simp only [List.length_cons]
    omega
  rw [if_congr hiff rfl rfl]

theorem inPart_lt_incompatible {ds : List Int} (hpw : List.Pairwise (· < ·) ds)
    {i j : Nat} {k : Int} (hij : i < j) (hj : j + 1 < ds.length)
    (hik : inPart ds i k) (hjk : inPart ds j k) : False := by
  obtain ⟨hik₁, hik₂⟩ := hik
  obtain ⟨hjk₁, _⟩ := hjk
  have hinotlast : ¬(i + 2 = ds.length) := by omega
  rw [if_neg hinotlast] at hik₂
  have hle : ds.getD (i + 1) 0 ≤ ds.getD j 0 := by
    rcases Nat.lt_or_ge (i + 1) j with hlt | hge
    · have := pairwise_getD_lt hpw hlt (by omega)
      omega
    · have hj₂ : i + 1 = j := by omega
      rw [hj₂]
  omega

theorem inPart_exclusive {ds : List Int} (h : List.Chain' (· < ·) ds) {i j : Nat}
    {k : Int} (hi : i + 1 < ds.length) (hj : j + 1 < ds.length)
    (hik : inPart ds i k) (hjk : inPart ds j k) : i = j := by
  have hpw := List.chain'_iff_pairwise.mp h
  rcases Nat.lt_trichotomy i j with hlt | heq | hgt
  · exact absurd (inPart_lt_incompatible hpw hlt hj hik hjk) not_false
  · exact heq
  · exact absurd (inPart_lt_incompatible hpw hgt hi hjk hik) not_false

theorem inPart_exhaustive {ds : List Int} (h : List.Chain' (· < ·) ds)
    {k : Int} (h2 : 2 ≤ ds.length) (hlow : ds.getD 0 0 ≤ k)
    (hhigh : k ≤ ds.getD (ds.length - 1) 0) :
    ∃ i, i + 1 < ds.length ∧ inPart ds i k := by
  induction ds with
  | nil => simp at h2
  | cons d₀ t iht =>
    cases t with
    | nil => simp at h2
    | cons d₁ t₂ =>
      cases t₂ with
      | nil =>
        refine ⟨0, by simp, ?_⟩
        unfold inPart
        rw [if_pos (show (0 : Nat) + 2 = ([d₀, d₁] : List Int).length from rfl)]
        constructor
        · simpa using hlow
        · simpa using hhigh
      | cons d₂ t₃ =>
        by_cases hk : k < d₁
        · refine ⟨0, by simp, ?_⟩
          unfold inPart
          rw [if_neg (show ¬((0 : Nat) + 2 = (d₀ :: d₁ :: d₂ :: t₃).length) by
            simp only [List.length_cons]
            omega)]
          constructor
          · simpa using hlow
          · simpa using hk
        · have hchain₂ : List.Chain' (· < ·) (d₁ :: d₂ :: t₃) := h.tail
          have hlow₂ : (d₁ :: d₂ :: t₃).getD 0 0 ≤ k := by
            simpa using not_lt.mp hk
          have hhigh₂ : k ≤ (d₁ :: d₂ :: t₃).getD ((d₁ :: d₂ :: t₃).length - 1) 0 := by
            have hsh : (d₀ :: d₁ :: d₂ :: t₃).length - 1
                = ((d₁ :: d₂ :: t₃).length - 1) + 1 := by
              simp
            rw [hsh, List.getD_cons_succ] at hhigh
            exact hhigh
          obtain ⟨i, hi₁, hi₂⟩ := iht hchain₂ (by simp) hlow₂ hhigh₂
          refine ⟨i + 1, ?_, inPart_cons.mpr hi₂⟩
          simp only [List.length_cons] at hi₁ ⊢
          omega

theorem chain_divisionsOf (ks : List Int) (p : Nat) :
    List.Chain' (· < ·) (divisionsOf ks p) := by
  unfold divisionsOf
  cases ks.getLast? with
  | none => exact List.chain'_nil
  | some m => exact List.destutter_is_chain' _ _

theorem sortByKey_sorted (rows : List Row) :
    List.Pairwise (fun r s : Row => r.key ≤ s.key) (sortByKey rows) := by
  have htrans : ∀ a b c : Row, leB a b = true → leB b c = true → leB a c = true := by
    intro a b c hab hbc
    simp only [leB, decide_eq_true_eq] at hab hbc ⊢
    omega
  have htot : ∀ a b : Row, (leB a b || leB b a) = true := by
    intro a b
    simp only [leB, Bool.or_eq_true, decide_eq_true_eq]
    omega
  have h := List.sorted_mergeSort htrans htot rows
  refine h.imp ?_
  intro a b hab
  simpa [leB] using hab

theorem filter_lt_append_ge {d : Int} {rows : List Row}
    (h : List.Pairwise (fun r s : Row => r.key ≤ s.key) rows) :
    rows.filter (fun r => decide (r.key < d))
      ++ rows.filter (fun r => decide (d ≤ r.key)) = rows := by
  induction rows with
  | nil => rfl
  | cons r rest ih =>
    have hpw := List.pairwise_cons.mp h
    by_cases hr : r.key < d
    · have hnot : ¬d ≤ r.key := not_le.mpr hr
      simp only [List.filter_cons, decide_eq_true_eq]
      rw [if_pos hr, if_neg hnot, List.cons_append, ih hpw.2]
    · have hd : d ≤ r.key := not_lt.mp hr
      have hnil : rest.filter (fun s => decide (s.key < d)) = [] := by
        rw [List.filter_eq_nil_iff]
        intro s hs
        have := hpw.1 s hs
        simp only [decide_eq_true_eq]
        omega
      have hall : rest.filter (fun s => decide (d ≤ s.key)) = rest := by
        rw [List.filter_eq_self]
        intro s hs
        have := hpw.1 s hs
        simp only [decide_eq_true_eq]
        omega
      simp only [List.filter_cons, decide_eq_true_eq]
      rw [if_neg hr, if_pos hd, hnil, List.nil_append]
      exact congrArg (r :: ·) hall

theorem flatten_splitGo {ds : List Int} {rows : List Row} (hds : ds ≠ [])
    (hrows : List.Pairwise (fun r s : Row => r.key ≤ s.key) rows) :
    (splitGo ds rows).flatten = rows := by
  induction ds generalizing rows with
  | nil => exact absurd rfl hds
  | cons d₀ t ih =>
    cases t with
    | nil => simp [splitGo]
    | cons d₁ t₂ =>
      cases t₂ with
      | nil => simp [splitGo]
      | cons d₂ t₃ =>
        show (rows.filter (fun r => decide (r.key < d₁))
          :: splitGo (d₁ :: d₂ :: t₃) (rows.filter (fun r => decide (d₁ ≤ r.key)))).flatten
          = rows
        rw [List.flatten_cons, ih (by simp) (List.Pairwise.filter _ hrows)]
        exact filter_lt_append_ge hrows

theorem map_nodeRows_sourceGo (i : Nat) (parts : List (List Row)) :
    (sourceGo i parts).map nodeRows = parts := by
  induction parts generalizing i with
  | nil => rfl
  | cons p rest ih => simp [sourceGo, nodeRows, ih]

theorem sourceGo_nodes (i : Nat) (parts : List (List Row)) {p : Key × Task}
    (hp : p ∈ sourceGo i parts) : p.2.deps = [] ∧ ∃ rows, p.2.fn = .source rows := by
  induction parts generalizing i with
  | nil => cases hp
  | cons q rest ih =>
    rcases List.mem_cons.mp hp with rfl | hp₂
    · exact ⟨rfl, q, rfl⟩
    · exact ih (i + 1) hp₂

theorem locTouched_eq_of_getLast {ds : List Int} {a b dn : Int}
    (hlast : ds.getLast? = some dn) :
    locTouched ds a b = if ds.length < 2 ∨ dn < a then [] else
      List.range' (min (ds.tail.countP (fun d => decide (d ≤ a))) (ds.length - 2))
        (ds.dropLast.countP (fun d => decide (d ≤ b))
          - min (ds.tail.countP (fun d => decide (d ≤ a))) (ds.length - 2)) := by
  unfold locTouched
  rw [hlast]

theorem locTouched_eq_nil_of_getLast_none {ds : List Int} {a b : Int}
    (hlast : ds.getLast? = none) : locTouched ds a b = [] := by
  unfold locTouched
  rw [hlast]

/-- Counterexample to claim C10 as stated: head is not the unique
exception to deferred evaluation.  On the concrete two-shard ingestion
`readCsv [fileA, fileB]`, the public operation set_index — which is not
head — returns a frame whose graph already holds the computed,
concatenated and sorted data of both partitions at call time, and that
graph is not an extension of the input graph by recorded task nodes: the
result is not an unevaluated lazy frame. -/
theorem head_unique_eagerness_counterexample :
    ((setIndex Row.key (readCsv [fileA, fileB])).dask.map nodeRows).flatten
        = [⟨1, 2⟩, ⟨3, 4⟩]
      ∧ ¬ ∃ ext, (setIndex Row.key (readCsv [fileA, fileB])).dask
          = (readCsv [fileA, fileB]).dask ++ ext := by
  have hcf : (computeFrame (readCsv [fileA, fileB])).map (reKey Row.key)
      = [⟨1, 2⟩, ⟨3, 4⟩] := by decide
  have hrows : sortByKey ((computeFrame (readCsv [fileA, fileB])).map (reKey Row.key))
      = [⟨1, 2⟩, ⟨3, 4⟩] := by
    rw [sortByKey, hcf]
    exact List.mergeSort_of_sorted (by decide)
  have hdask : (setIndex Row.key (readCsv [fileA, fileB])).dask
      = [((0, 0), ⟨.source [⟨1, 2⟩, ⟨3, 4⟩], []⟩)] := by
    show sourceGraph (splitGo
        (divisionsOf ((sortByKey ((computeFrame (readCsv [fileA, fileB])).map
            (reKey Row.key))).map Row.key)
          (max 1 (readCsv [fileA, fileB]).keys.length))
        (sortByKey ((computeFrame (readCsv [fileA, fileB])).map (reKey Row.key))))
      = [((0, 0), ⟨.source [⟨1, 2⟩, ⟨3, 4⟩], []⟩)]
    rw [hrows]
    decide
  constructor
  · rw [hdask]
    decide
  · rintro ⟨ext, hext⟩
    rw [hdask] at hext
    have hrd : (readCsv [fileA, fileB]).dask
        = [((0, 0), ⟨.source [⟨1, 2⟩], []⟩), ((0, 1), ⟨.source [⟨3, 4⟩], []⟩)] := by
      decide
    rw [hrd] at hext
    simp only [List.cons_append] at hext
    injection hext with h₁ h₂
    simp at h₂

theorem locTouched_lt_nparts {ds : List Int} {a b : Int} {i : Nat}
    (hi : i ∈ locTouched ds a b) : i + 1 < ds.length := by
  cases hlast : ds.getLast? with
  | none => rw [locTouched_eq_nil_of_getLast_none hlast] at hi; cases hi
  | some dn =>
    rw [locTouched_eq_of_getLast hlast] at hi
    by_cases hc : ds.length < 2 ∨ dn < a
    · rw [if_pos hc] at hi
      cases hi
    · rw [if_neg hc] at hi
      rw [List.mem_range'_1] at hi
      have hcnt := List.countP_le_length (fun d => decide (d ≤ b)) (l := ds.dropLast)
      rw [List.length_dropLast] at hcnt
      push_neg at hc
      omega

theorem locTouched_spec {ds : List Int} (hchain : List.Chain' (· < ·) ds)
    {a b : Int} (hab : a ≤ b) {i : Nat} (hi : i + 1 < ds.length) :
    i ∈ locTouched ds a b ↔ ∃ k, inPart ds i k ∧ a ≤ k ∧ k ≤ b := by
  have hpw := List.chain'_iff_pairwise.mp hchain
  have hpwt : List.Pairwise (· < ·) ds.tail :=
    List.Pairwise.sublist (List.tail_sublist ds) hpw
  have hpwd : List.Pairwise (· < ·) ds.dropLast :=
    List.Pairwise.sublist (List.dropLast_sublist ds) hpw
  have htl : i < ds.tail.length := by
    cases ds with
    | nil => simp at hi
    | cons d t =>
      simp only [List.tail_cons, List.length_cons] at hi ⊢
      omega
  cases hlast : ds.getLast? with
  | none =>
    have hnil : ds = [] := List.getLast?_eq_none_iff.mp hlast
    rw [hnil] at hi
    simp at hi
  | some dn =>
    have hdn := getLast?_getD hlast
    rw [locTouched_eq_of_getLast hlast]
    by_cases hc : ds.length < 2 ∨ dn < a
    · rw [if_pos hc]
      rcases hc with hlen | hdna
      · omega
      · simp only [List.not_mem_nil, false_iff]
        rintro ⟨k, ⟨hk₁, hk₂⟩, hak, hkb⟩
        have hub : ds.getD (i + 1) 0 ≤ dn := getD_le_getLast hpw hlast (by omega)
        by_cases hilast : i + 2 = ds.length
        · rw [if_pos hilast] at hk₂
          omega
        · rw [if_neg hilast] at hk₂
          omega
    · rw [if_neg hc]
      push_neg at hc
      obtain ⟨hlen2, hadn⟩ := hc
      rw [List.mem_range'_1]
      constructor
      · rintro ⟨hloi, hiub⟩
        have hicntB : i < ds.dropLast.countP (fun d => decide (d ≤ b)) := by omega
        have hdsib : ds.getD i 0 ≤ b := by
          have hiff := getD_le_iff_lt_countP hpwd (x := b) (j := i)
            (by rw [List.length_dropLast]; omega)
          rw [getD_dropLast (by omega)] at hiff
          exact hiff.mpr hicntB
        refine ⟨max a (ds.getD i 0), ⟨le_max_right _ _, ?_⟩,
          le_max_left _ _, max_le hab hdsib⟩
        by_cases hilast : i + 2 = ds.length
        · rw [if_pos hilast]
          have hieq : i + 1 = ds.length - 1 := by omega
          rw [hieq, hdn]
          refine max_le hadn ?_
          have hpl := pairwise_getD_lt hpw (show i < ds.length - 1 by omega) (by omega)
          rw [hdn] at hpl
          omega
        · rw [if_neg hilast]
          have hadlt : a < ds.getD (i + 1) 0 := by
            have hicnta : ds.tail.countP (fun d => decide (d ≤ a)) ≤ i := by omega
            have hiff := getD_le_iff_lt_countP hpwt (x := a) (j := i) htl
            rw [getD_tail] at hiff
            by_contra hle
            push_neg at hle
            have := hiff.mp hle
            omega
          have hdlt : ds.getD i 0 < ds.getD (i + 1) 0 :=
            pairwise_getD_lt hpw (Nat.lt_succ_self i) (by omega)
          exact max_lt hadlt hdlt
      · rintro ⟨k, ⟨hk₁, hk₂⟩, hak, hkb⟩
        have hicntB : i < ds.dropLast.countP (fun d => decide (d ≤ b)) := by
          have hiff := getD_le_iff_lt_countP hpwd (x := b) (j := i)
            (by rw [List.length_dropLast]; omega)
          rw [getD_dropLast (by omega)] at hiff
          exact hiff.mp (by omega)
        have hloi : min (ds.tail.countP (fun d => decide (d ≤ a))) (ds.length - 2) ≤ i := by
          by_cases hilast : i + 2 = ds.length
          · omega
          · rw [if_neg hilast] at hk₂
            by_contra hgt
            push_neg at hgt
            have hicnta : i < ds.tail.countP (fun d => decide (d ≤ a)) := by omega
            have hiff := getD_le_iff_lt_countP hpwt (x := a) (j := i) htl
            rw [getD_tail] at hiff
            have := hiff.mpr hicnta
            omega
        omega

/-- Claim C2: a key-range query by loc over known divisions touches
exactly the partitions whose division range intersects the queried range:
a partition index is selected iff some key lies in both the partition
range and the query range, and the loc operation's added tasks read
precisely the selected partitions, skipping all others. -/
theorem loc_touches_only_intersecting {ds : List Int}
    (hchain : List.Chain' (· < ·) ds) {a b : Int} (hab : a ≤ b) {i : Nat}
    (hi : i + 1 < ds.length) :
    (i ∈ locTouched ds a b ↔ ∃ k, inPart ds i k ∧ a ≤ k ∧ k ≤ b)
      ∧ (∀ df df₂ : DFrame, df.divisions = some ds →
          ds.length = df.keys.length + 1 → locFrame a b df = some df₂ →
          df₂.dask = df.dask ++ locNodes a b df.next df.keys (locTouched ds a b)
            ∧ df₂.keys.length = (locTouched ds a b).length) := by
  refine ⟨locTouched_spec hchain hab hi, ?_⟩
  intro df df₂ hds hlen hloc
  rw [locFrame, hds] at hloc
  simp only [Option.map_some', Option.some_inj] at hloc
  have hfilter : (locTouched ds a b).filter (fun j => decide (j < df.keys.length))
      = locTouched ds a b := by
    rw [List.filter_eq_self]
    intro j hj
    have := locTouched_lt_nparts hj
    simp only [decide_eq_true_eq]
    omega
  rw [← hloc]
  constructor
  · show df.dask ++ locNodes a b df.next df.keys
      ((locTouched ds a b).filter (fun j => decide (j < df.keys.length)))
      = df.dask ++ locNodes a b df.next df.keys (locTouched ds a b)
    rw [hfilter]
  · show (partKeys df.next ((locTouched ds a b).filter
      (fun j => decide (j < df.keys.length))).length).length
      = (locTouched ds a b).length
    rw [hfilter, partKeys, keysGo_length]

/-- Witness for C2 at concrete divisions [0, 10, 20, 30] with query
[12, 25] and partition index 1. -/
theorem loc_touches_only_intersecting_witness :
    ((1 : Nat) ∈ locTouched [0, 10, 20, 30] 12 25
        ↔ ∃ k, inPart [0, 10, 20, 30] 1 k ∧ 12 ≤ k ∧ k ≤ 25)
      ∧ (∀ df df₂ : DFrame, df.divisions = some [0, 10, 20, 30] →
          ([0, 10, 20, 30] : List Int).length = df.keys.length + 1 →
          locFrame 12 25 df = some df₂ →
          df₂.dask = df.dask ++ locNodes 12 25 df.next df.keys
              (locTouched [0, 10, 20, 30] 12 25)
            ∧ df₂.keys.length = (locTouched [0, 10, 20, 30] 12 25).length) :=
  loc_touches_only_intersecting (by simp [List.chain'_cons]) (by decide) (by decide)

theorem divOK_locFrame {df df₂ : DFrame} {a b : Int} (h : divOK df.divisions)
    (hloc : locFrame a b df = some df₂) : divOK df₂.divisions := by
  rw [locFrame] at hloc
  cases hds : df.divisions with
  | none => rw [hds] at hloc; cases hloc
  | some ds =>
    rw [hds] at hloc
    simp only [Option.map_some', Option.some_inj] at hloc
    rw [← hloc]
    rw [hds] at h
    have hch : List.Chain' (· < ·) ds := h
    show List.Chain' (· < ·)
      (if ((locTouched ds a b).filter
          (fun j => decide (j < df.keys.length))).isEmpty = true then []
        else List.take (((locTouched ds a b).filter
            (fun j => decide (j < df.keys.length))).length + 1)
          (List.drop (((locTouched ds a b).filter
            (fun j => decide (j < df.keys.length))).headD 0) ds))
    by_cases he : ((locTouched ds a b).filter
        (fun j => decide (j < df.keys.length))).isEmpty = true
    · rw [if_pos he]
      exact List.chain'_nil
    · rw [if_neg he]
      exact (hch.drop _).take _

/-- Claim C3: divisions, when present, are strictly increasing, the
partition key ranges they bound are mutually exclusive and collectively
exhaustive over the key domain, and every operation producing a table
preserves the invariant (ingestion and groupby produce unknown divisions,
which satisfy it vacuously). -/
theorem divisions_strictly_increasing :
    (∀ files, divOK (readCsv files).divisions)
      ∧ (∀ fn df, divOK df.divisions → divOK (mapOp fn df).divisions)
      ∧ (∀ df, divOK (groupbySum df).divisions)
      ∧ (∀ col df, divOK (setIndex col df).divisions)
      ∧ (∀ a b df df₂, divOK df.divisions → locFrame a b df = some df₂ →
          divOK df₂.divisions)
      ∧ (∀ ds : List Int, divOK (some ds) →
          (∀ i j k, i + 1 < ds.length → j + 1 < ds.length →
            inPart ds i k → inPart ds j k → i = j)
          ∧ (∀ k, 2 ≤ ds.length → ds.getD 0 0 ≤ k →
              k ≤ ds.getD (ds.length - 1) 0 →
              ∃ i, i + 1 < ds.length ∧ inPart ds i k)) := by
  refine ⟨fun files => trivial, fun fn df h => h, fun df => trivial,
    fun col df => chain_divisionsOf _ _,
    fun a b df df₂ h hl => divOK_locFrame h hl, ?_⟩
  intro ds h
  have hch : List.Chain' (· < ·) ds := h
  exact ⟨fun i j k hi hj hik hjk => inPart_exclusive hch hi hj hik hjk,
    fun k h2 hlow hhigh => inPart_exhaustive hch h2 hlow hhigh⟩

theorem flatten_splitGo_nil (ds : List Int) : (splitGo ds []).flatten = [] := by
  induction ds with
  | nil => rfl
  | cons d₀ t ih =>
    cases t with
    | nil => rfl
    | cons d₁ t₂ =>
      cases t₂ with
      | nil => rfl
      | cons d₂ t₃ =>
        show ((([] : List Row).filter (fun r => decide (r.key < d₁)))
          :: splitGo (d₁ :: d₂ :: t₃)
            (([] : List Row).filter (fun r => decide (d₁ ≤ r.key)))).flatten = []
        simp only [List.filter_nil, List.flatten_cons, List.nil_append]
        exact ih

/-- Claim C4: set_index computes at call time rather than recording a
task: the resulting frame has known (non-null) divisions, its graph holds
only fully materialized source partitions with no deferred work, and those
partitions concatenate exactly to the sorted, re-keyed materialization of
the whole input table. -/
theorem setIndex_materializes_whole_table (col : Row → Int) (df : DFrame) :
    (setIndex col df).divisions.isSome
      ∧ ((setIndex col df).dask.map nodeRows).flatten
          = sortByKey ((computeFrame df).map (reKey col))
      ∧ (∀ p ∈ (setIndex col df).dask, p.2.deps = []
          ∧ ∃ rows, p.2.fn = .source rows) := by
  refine ⟨rfl, ?_, ?_⟩
  · show ((sourceGo 0 (splitGo
        (divisionsOf ((sortByKey ((computeFrame df).map (reKey col))).map Row.key)
          (max 1 df.keys.length))
        (sortByKey ((computeFrame df).map (reKey col))))).map nodeRows).flatten
      = sortByKey ((computeFrame df).map (reKey col))
    rw [map_nodeRows_sourceGo]
    by_cases hrnil : sortByKey ((computeFrame df).map (reKey col)) = []
    · rw [hrnil]
      exact flatten_splitGo_nil _
    · refine flatten_splitGo ?_ (sortByKey_sorted _)
      unfold divisionsOf
      cases hlt : ((sortByKey ((computeFrame df).map (reKey col))).map Row.key).getLast? with
      | none =>
        have hmapnil := List.getLast?_eq_none_iff.mp hlt
        rw [List.map_eq_nil] at hmapnil
        exact absurd hmapnil hrnil
      | some m =>
        intro hnil
        rw [List.destutter_eq_nil] at hnil
        unfold sampleBoundaries at hnil
        simp at hnil
  · intro p hp
    refine sourceGo_nodes 0 (splitGo
      (divisionsOf ((sortByKey ((computeFrame df).map (reKey col))).map Row.key)
        (max 1 df.keys.length))
      (sortByKey ((computeFrame df).map (reKey col)))) ?_
    exact hp

end Dask
